import Mathlib

/-!
Verification development for the greptimedb core subsystems described in
`spec.md`: the region-manifest checkpointer (`src/storage/src/manifest/region.rs`),
the table-options string-map codec (`src/table/src/requests.rs`) and the PromQL
planner (`src/promql/src/planner.rs`).

The manifest log store (`ManifestImpl`, `scan`, `last_version`, `last_checkpoint`,
`save_checkpoint`) and the `RegionManifestDataBuilder` live outside the provided
sources; they are modelled from the spec (sections 3, 4.2 and 6) as noted on the
individual definitions.  Everything else is translated from the source files.
-/

namespace Greptime

/-- Structural decidable equality for `Except` results, used to evaluate the
models on concrete inputs. -/
instance {ε α : Type} [DecidableEq ε] [DecidableEq α] : DecidableEq (Except ε α) := fun x y =>
  match x, y with
  | .ok a, .ok b => decidable_of_iff (a = b) (by simp)
  | .error a, .error b => decidable_of_iff (a = b) (by simp)
  | .ok _, .error _ => .isFalse fun hc => Except.noConfusion hc
  | .error _, .ok _ => .isFalse fun hc => Except.noConfusion hc

/-! ## Region manifest data model

Translated from `storage/src/manifest/action.rs` signatures as described by the
spec (section 3, "Manifest actions").  Metadata payloads and file identifiers are
abstracted to naturals: the checkpointer never inspects them, it only moves them
around. -/

/-- `RegionChange`: replace the region metadata and record the committed
write sequence number. -/
structure RegionChange where
  metadata : Nat
  committedSequence : Nat
deriving DecidableEq, Repr

/-- `RegionEdit`: update the file set and carry a flushed-sequence watermark. -/
structure RegionEdit where
  filesToAdd : List Nat
  filesToRemove : List Nat
  flushedSequence : Option Nat
deriving DecidableEq, Repr

/-- `RegionMetaAction`: the tagged union appended to a region's manifest log. -/
inductive RegionMetaAction where
  | change (c : RegionChange)
  | edit (e : RegionEdit)
  | protocol (p : Nat)
  | remove
deriving DecidableEq, Repr

/-- `RegionMetaActionList`: the atomic unit of append, a bundle of actions. -/
structure RegionMetaActionList where
  actions : List RegionMetaAction
deriving DecidableEq, Repr

/-- `RegionVersion`: the region-version record carried by the folded state. -/
structure RegionVersion where
  manifestVersion : Nat
  flushedSequence : Option Nat
  files : List Nat
deriving DecidableEq, Repr

/-- `RegionManifestData`: the folded in-memory state of a region manifest. -/
structure RegionManifestData where
  committedSequence : Nat
  metadata : Nat
  version : Option RegionVersion
deriving DecidableEq, Repr, Inhabited

/-- `RegionCheckpoint`: a compacted snapshot of a manifest-log prefix. -/
structure RegionCheckpoint where
  protocol : Nat
  lastVersion : Nat
  compactedActions : Nat
  checkpoint : Option RegionManifestData
deriving DecidableEq, Repr

/-! ## RegionManifestDataBuilder

Modelled from the spec: `RegionManifestDataBuilder` is in
`storage/src/manifest/action.rs`, which is not among the provided sources.
Spec section 4.2 (Checkpointing algorithm, step 4) gives the fold semantics:
Change replaces metadata and committed sequence; Edit adds files, removes
files, updates the flushed sequence and sets
`region_version.manifest_version` to the iterator's current version;
Protocol overwrites the protocol.  The builder carries exactly the fields of
`RegionManifestData`, seeds from an optional checkpoint and `build`s into the
data it holds. -/

/-- Modelled from the spec: `RegionManifestDataBuilder::default()`. -/
def builderDefault : RegionManifestData :=
  { committedSequence := 0, metadata := 0, version := none }

/-- Modelled from the spec: `RegionManifestDataBuilder::with_checkpoint`. -/
def withCheckpoint : Option RegionManifestData → RegionManifestData
  | some d => d
  | none => builderDefault

/-- Modelled from the spec: `RegionManifestDataBuilder::apply_change`. -/
def applyChange (b : RegionManifestData) (c : RegionChange) : RegionManifestData :=
  { b with metadata := c.metadata, committedSequence := c.committedSequence }

/-- Insert a file identifier if it is not present (HashMap-insert semantics). -/
def insertFile (files : List Nat) (f : Nat) : List Nat :=
  if f ∈ files then files else files ++ [f]

/-- Modelled from the spec: `RegionManifestDataBuilder::apply_edit` at iterator
version `v`: add the listed files, remove the listed files, update the flushed
sequence and set `manifest_version` to `v`. -/
def applyEdit (b : RegionManifestData) (v : Nat) (e : RegionEdit) : RegionManifestData :=
  let files := match b.version with
    | some rv => rv.files
    | none => []
  let files := (e.filesToAdd.foldl insertFile files).filter (fun f => ¬ f ∈ e.filesToRemove)
  { b with version := some { manifestVersion := v, flushedSequence := e.flushedSequence, files := files } }

/-! ## Replay of action lists

Translated from the loop body of `RegionManifestCheckpointer::do_checkpoint`
(`storage/src/manifest/region.rs`, lines 88-104), which is also the recovery
replay described by the spec.  The folded state is a pair of the current
protocol and the builder; a `Remove` action fails the fold
(`ManifestCheckpointSnafu`). -/

/-- Protocol-and-builder state threaded through the checkpoint fold. -/
abbrev ProtoBuilder := Nat × RegionManifestData

/-- Apply one action at manifest version `v`.  `Remove` is rejected, exactly as
the `action => ManifestCheckpointSnafu` arm of `do_checkpoint`. -/
def applyAction (v : Nat) (pb : ProtoBuilder) : RegionMetaAction → Except Unit ProtoBuilder
  | .change c => .ok (pb.1, applyChange pb.2 c)
  | .edit e => .ok (pb.1, applyEdit pb.2 v e)
  | .protocol p => .ok (p, pb.2)
  | .remove => .error ()

/-- Apply the actions of one action list, in order, at version `v`. -/
def applyActions (v : Nat) : ProtoBuilder → List RegionMetaAction → Except Unit ProtoBuilder
  | pb, [] => .ok pb
  | pb, a :: rest =>
    match applyAction v pb a with
    | .ok pb' => applyActions v pb' rest
    | .error e => .error e

/-- Apply a sequence of `(version, action_list)` entries, in order. -/
def applyEntries : ProtoBuilder → List (Nat × RegionMetaActionList) → Except Unit ProtoBuilder
  | pb, [] => .ok pb
  | pb, (v, al) :: rest =>
    match applyActions v pb al.actions with
    | .ok pb' => applyEntries pb' rest
    | .error e => .error e

/-! ## Manifest store state

Modelled from the spec (section 4.2, "Public operations"): the log is an
append-only dense sequence of action lists starting at `MIN_VERSION = 0`
(`update` allocates consecutive versions), `last_version` is the highest
committed version, `scan(from, to)` yields `(version, action_list)` for every
committed version in `[from, min(to, last_version + 1))` in ascending order,
and `last_checkpoint` reads the latest published checkpoint.
Garbage collection of superseded log objects is not modelled: `do_checkpoint`
never scans below the published checkpoint, so deletion is unobservable here. -/

/-- State of one region's manifest: the dense log (version `v` is `log[v]`),
the flushed manifest version and the latest published checkpoint. -/
structure ManifestState where
  log : List RegionMetaActionList
  flushed : Nat
  lastCkpt : Option RegionCheckpoint
deriving DecidableEq, Repr

/-- The empty manifest: no log entries, `flushed_manifest_version` initialised
to `0` (`AtomicU64::new(0)` in `RegionManifest::with_checkpointer`). -/
def initManifest : ManifestState :=
  { log := [], flushed := 0, lastCkpt := none }

/-- `last_version()`: the highest committed version (`0` on an empty log). -/
def lastVersion (s : ManifestState) : Nat :=
  s.log.length - 1

/-- `scan(from, to)`: every `(version, action_list)` with
`from ≤ version < min(to, last_version + 1)`, ascending. -/
def scan (s : ManifestState) (lo hi : Nat) : List (Nat × RegionMetaActionList) :=
  (List.range' lo (min hi s.log.length - lo)).filterMap
    fun v => (s.log.get? v).map fun al => (v, al)

/-- `set_flushed_manifest_version`: translated from
`storage/src/manifest/region.rs` lines 45-48 — an unconditional store of the
argument. -/
def setFlushedManifestVersion (s : ManifestState) (v : Nat) : ManifestState :=
  { s with flushed := v }

/-! ## do_checkpoint

Translated from `RegionManifestCheckpointer::do_checkpoint`
(`storage/src/manifest/region.rs`, lines 56-140). -/

/-- `start_version`: last checkpoint's `last_version + 1`, or `MIN_VERSION = 0`. -/
def startVersion (s : ManifestState) : Nat :=
  match s.lastCkpt with
  | some cp => cp.lastVersion + 1
  | none => 0

/-- The seed of the checkpoint fold: the last checkpoint's protocol and folded
state, or the defaults. -/
def initProtoBuilder (s : ManifestState) : ProtoBuilder :=
  match s.lastCkpt with
  | some cp => (cp.protocol, withCheckpoint cp.checkpoint)
  | none => (0, builderDefault)

/-- `end_version = min(current_version, flushed_manifest_version) + 1`. -/
def endVersion (s : ManifestState) : Nat :=
  min (lastVersion s) s.flushed + 1

/-- The `last_version` local of `do_checkpoint` after the scan loop: the version
of the last entry scanned, initialised to `start_version`. -/
def lastScannedVersion (entries : List (Nat × RegionMetaActionList)) (dflt : Nat) : Nat :=
  match entries.getLast? with
  | some p => p.1
  | none => dflt

/-- `do_checkpoint`: returns `none` when `start_version ≥ end_version` or when
zero actions were compacted, an error when the scanned range holds an action
the fold rejects, and otherwise the new checkpoint.  Log deletion (step 7) is
swallowed and unobservable to later scans, so it is not modelled. -/
def doCheckpoint (s : ManifestState) : Except Unit (Option RegionCheckpoint) :=
  if startVersion s ≥ endVersion s then .ok none
  else
    let entries := scan s (startVersion s) (endVersion s)
    match applyEntries (initProtoBuilder s) entries with
    | .error e => .error e
    | .ok pb =>
      if entries.length = 0 then .ok none
      else .ok (some { protocol := pb.1,
                       lastVersion := lastScannedVersion entries (startVersion s),
                       compactedActions := entries.length,
                       checkpoint := some pb.2 })

/-! ## Manifest histories -/

/-- One externally-visible manifest operation. -/
inductive ManifestEvent where
  | append (l : RegionMetaActionList)
  | setFlushed (v : Nat)
  | checkpoint
deriving DecidableEq, Repr

/-- Apply one event.  `update` appends at the next version; `checkpoint`
publishes the produced checkpoint via `save_checkpoint` when `do_checkpoint`
returns one, and leaves the state unchanged otherwise. -/
def stepEvent (s : ManifestState) : ManifestEvent → ManifestState
  | .append l => { s with log := s.log ++ [l] }
  | .setFlushed v => setFlushedManifestVersion s v
  | .checkpoint =>
    match doCheckpoint s with
    | .ok (some cp) => { s with lastCkpt := some cp }
    | _ => s

/-- Run a history of manifest events from the empty manifest. -/
def runEvents (events : List ManifestEvent) : ManifestState :=
  events.foldl stepEvent initManifest

/-! ## Basic facts about `scan` -/

theorem filterMap_eq_map_of_mem {α β : Type} (l : List α) (f : α → Option β) (g : α → β)
    (h : ∀ a ∈ l, f a = some (g a)) : l.filterMap f = l.map g := by
  induction l with
  | nil => simp
  | cons a t ih =>
    rw [List.filterMap_cons, h a (by simp), List.map_cons,
      ih (fun x hx => h x (List.mem_cons_of_mem a hx))]

/-- `scan` in closed form: the versions `[lo, min hi len)` paired with the log
entries at those versions. -/
theorem scan_eq_map (s : ManifestState) (lo hi : Nat) :
    scan s lo hi = (List.range' lo (min hi s.log.length - lo)).map
      (fun v => (v, s.log.getD v ⟨[]⟩)) := by
  apply filterMap_eq_map_of_mem
  intro v hv
  rw [List.mem_range'] at hv
  obtain ⟨i, hik, hv⟩ := hv
  have hvlen : v < s.log.length := by
    have := Nat.min_le_right hi s.log.length
    omega
  rw [List.getD_eq_getElem?_getD, ← List.get?_eq_getElem?, List.get?_eq_get hvlen]
  simp [List.get?_eq_get hvlen]

theorem scan_length (s : ManifestState) (lo hi : Nat) :
    (scan s lo hi).length = min hi s.log.length - lo := by
  rw [scan_eq_map, List.length_map, List.length_range']

theorem scan_eq_nil (s : ManifestState) (lo hi : Nat) (h : min hi s.log.length ≤ lo) :
    scan s lo hi = [] := by
  rw [scan_eq_map]
  have hz : min hi s.log.length - lo = 0 := by omega
  rw [hz]
  rfl

theorem scan_lastScanned (s : ManifestState) (lo hi d : Nat)
    (h : min hi s.log.length - lo ≠ 0) :
    lastScannedVersion (scan s lo hi) d = min hi s.log.length - 1 := by
  rw [scan_eq_map]
  obtain ⟨j, hj⟩ : ∃ j, min hi s.log.length - lo = j + 1 :=
    ⟨min hi s.log.length - lo - 1, by omega⟩
  rw [hj, List.range'_concat]
  unfold lastScannedVersion
  rw [List.map_append, List.getLast?_append]
  simp only [List.map_cons, List.map_nil, List.getLast?_singleton, Option.or_some]
  omega

theorem scan_split (s : ManifestState) (a b : Nat) (hab : a ≤ b) (hb : b ≤ s.log.length) :
    scan s 0 b = scan s 0 a ++ scan s a b := by
  rw [scan_eq_map, scan_eq_map, scan_eq_map, ← List.map_append]
  have h1 : min a s.log.length = a := by omega
  have h2 : min b s.log.length = b := by omega
  rw [h1, h2]
  congr 1
  have h := List.range'_append 0 a (b - a) 1
  simp only [Nat.one_mul, Nat.zero_add] at h
  rw [Nat.sub_add_cancel hab] at h
  rw [Nat.sub_zero, Nat.sub_zero, ← h]

theorem scan_log_append_of_le (s : ManifestState) (l : RegionMetaActionList) (a : Nat)
    (h : a ≤ s.log.length) :
    scan { s with log := s.log ++ [l] } 0 a = scan s 0 a := by
  rw [scan_eq_map, scan_eq_map]
  simp only [List.length_append, List.length_singleton, Nat.sub_zero]
  have h1 : min a (s.log.length + 1) = min a s.log.length := by omega
  rw [h1]
  apply List.map_congr_left
  intro v hv
  rw [List.mem_range'] at hv
  obtain ⟨i, hik, hv⟩ := hv
  have hvlen : v < s.log.length := by omega
  rw [List.getD_append _ _ _ _ hvlen]

/-! ## Basic facts about the checkpoint fold -/

theorem applyEntries_append (pb : ProtoBuilder) (l1 l2 : List (Nat × RegionMetaActionList)) :
    applyEntries pb (l1 ++ l2) =
      match applyEntries pb l1 with
      | .ok pb' => applyEntries pb' l2
      | .error e => .error e := by
  induction l1 generalizing pb with
  | nil => rfl
  | cons hd tl ih =>
    obtain ⟨v, al⟩ := hd
    rw [List.cons_append]
    simp only [applyEntries]
    cases h : applyActions v pb al.actions with
    | ok pb' =>
      simp only [h]
      exact ih pb'
    | error e => simp only [h]

/-- Anatomy of a successful `do_checkpoint`: the guard fails, the scan is
non-empty, the fold succeeds, and the checkpoint is assembled from the fold
result and the scan statistics. -/
theorem doCheckpoint_some_spec (s : ManifestState) (cp : RegionCheckpoint)
    (h : doCheckpoint s = .ok (some cp)) :
    ¬ startVersion s ≥ endVersion s ∧
      (scan s (startVersion s) (endVersion s)).length ≠ 0 ∧
      ∃ pb, applyEntries (initProtoBuilder s) (scan s (startVersion s) (endVersion s)) = .ok pb ∧
        cp = { protocol := pb.1,
               lastVersion := lastScannedVersion (scan s (startVersion s) (endVersion s))
                 (startVersion s),
               compactedActions := (scan s (startVersion s) (endVersion s)).length,
               checkpoint := some pb.2 } := by
  unfold doCheckpoint at h
  by_cases h1 : startVersion s ≥ endVersion s
  · simp [h1] at h
  · rw [if_neg h1] at h
    refine ⟨h1, ?_⟩
    cases h2 : applyEntries (initProtoBuilder s) (scan s (startVersion s) (endVersion s)) with
    | error e => simp [h2] at h
    | ok pb =>
      simp only [h2] at h
      by_cases h3 : (scan s (startVersion s) (endVersion s)).length = 0
      · simp [h3] at h
      · rw [if_neg h3] at h
        refine ⟨h3, pb, rfl, ?_⟩
        simp only [Except.ok.injEq, Option.some.injEq] at h
        exact h.symm

/-- C3: `do_checkpoint` computes `start` as the last published checkpoint's
`last_version + 1` (`MIN_VERSION = 0` when no checkpoint exists) and `end` as
`min(current last version, flushed_manifest_version) + 1`; whenever
`start ≥ end` or the scan of `[start, end)` yields zero action lists, it
returns without persisting a checkpoint and the stored last checkpoint is
unchanged. -/
theorem doCheckpoint_early_return (s : ManifestState)
    (h : (match s.lastCkpt with | some cp => cp.lastVersion + 1 | none => 0) ≥
          min (lastVersion s) s.flushed + 1
        ∨ scan s (startVersion s) (endVersion s) = []) :
    doCheckpoint s = .ok none ∧ stepEvent s .checkpoint = s := by
  have hnone : doCheckpoint s = .ok none := by
    unfold doCheckpoint
    rcases h with h | h
    · rw [if_pos]
      exact h
    · by_cases hc : startVersion s ≥ endVersion s
      · rw [if_pos hc]
      · rw [if_neg hc]
        simp [h, applyEntries]
  exact ⟨hnone, by simp [stepEvent, hnone]⟩

/-- Witness for C3: the empty manifest has `start = 0 < 1 = end` but an empty
scan, so `do_checkpoint` persists nothing and the checkpoint cell stays put. -/
theorem doCheckpoint_early_return_witness :
    scan initManifest (startVersion initManifest) (endVersion initManifest) = [] ∧
      doCheckpoint initManifest = .ok none ∧
      stepEvent initManifest .checkpoint = initManifest :=
  ⟨by decide, doCheckpoint_early_return initManifest (Or.inr (by decide))⟩

/-- C5: a persisted checkpoint's `last_version` equals the previously published
checkpoint's `last_version` plus the new checkpoint's `compacted_actions`; for
the first checkpoint (no previous one) the baseline is `MIN_VERSION - 1`, that
is `last_version + 1 = compacted_actions`. -/
theorem doCheckpoint_lastVersion_accumulates (s : ManifestState) (cp : RegionCheckpoint)
    (h : doCheckpoint s = .ok (some cp)) :
    match s.lastCkpt with
    | some prev => cp.lastVersion = prev.lastVersion + cp.compactedActions
    | none => cp.lastVersion + 1 = cp.compactedActions := by
  obtain ⟨h1, h3, pb, h2, hcp⟩ := doCheckpoint_some_spec s cp h
  subst hcp
  have hlen := scan_length s (startVersion s) (endVersion s)
  have hk : min (endVersion s) s.log.length - startVersion s ≠ 0 := by omega
  have hlast := scan_lastScanned s (startVersion s) (endVersion s) (startVersion s) hk
  cases hck : s.lastCkpt with
  | none =>
    have hstart : startVersion s = 0 := by simp [startVersion, hck]
    simp only [hlast, hlen]
    omega
  | some prev =>
    have hstart : startVersion s = prev.lastVersion + 1 := by simp [startVersion, hck]
    simp only [hlast, hlen]
    omega

/-- Witness for C5: a second checkpoint on top of a published one satisfies
`last_version = previous last_version + compacted_actions`, and a first
checkpoint satisfies the `MIN_VERSION - 1` baseline reading. -/
theorem doCheckpoint_lastVersion_accumulates_witness :
    doCheckpoint (runEvents [.append ⟨[.change ⟨1, 2⟩]⟩, .checkpoint,
        .append ⟨[.change ⟨3, 4⟩]⟩, .setFlushed 1]) =
      .ok (some { protocol := 0, lastVersion := 1, compactedActions := 1,
                  checkpoint := some ⟨4, 3, none⟩ }) ∧
      (1 : Nat) = 0 + 1 :=
  ⟨by decide,
   doCheckpoint_lastVersion_accumulates
     (runEvents [.append ⟨[.change ⟨1, 2⟩]⟩, .checkpoint,
        .append ⟨[.change ⟨3, 4⟩]⟩, .setFlushed 1])
     { protocol := 0, lastVersion := 1, compactedActions := 1,
       checkpoint := some ⟨4, 3, none⟩ } (by decide)⟩

/-- C9: `compacted_actions` counts the `(version, action_list)` pairs scanned
from the log — the number of manifest versions folded — not the individual
actions inside the lists. -/
theorem doCheckpoint_compactedActions (s : ManifestState) (cp : RegionCheckpoint)
    (h : doCheckpoint s = .ok (some cp)) :
    cp.compactedActions = (scan s (startVersion s) (endVersion s)).length := by
  obtain ⟨_, _, pb, _, hcp⟩ := doCheckpoint_some_spec s cp h
  subst hcp
  rfl

/-- Witness for C9: one appended action list holding two actions (a `Change`
and an `Edit`) is compacted as `compacted_actions = 1`, not `2`. -/
theorem doCheckpoint_compactedActions_witness :
    doCheckpoint (runEvents [.append ⟨[.change ⟨1, 2⟩, .edit ⟨[5], [], some 3⟩]⟩]) =
      .ok (some { protocol := 0, lastVersion := 0, compactedActions := 1,
                  checkpoint := some ⟨2, 1, some ⟨0, some 3, [5]⟩⟩ }) ∧
      ({ protocol := 0, lastVersion := 0, compactedActions := 1,
         checkpoint := some ⟨2, 1, some ⟨0, some 3, [5]⟩⟩ } :
           RegionCheckpoint).compactedActions =
        (scan (runEvents [.append ⟨[.change ⟨1, 2⟩, .edit ⟨[5], [], some 3⟩]⟩])
          (startVersion (runEvents [.append ⟨[.change ⟨1, 2⟩, .edit ⟨[5], [], some 3⟩]⟩]))
          (endVersion (runEvents [.append ⟨[.change ⟨1, 2⟩, .edit ⟨[5], [], some 3⟩]⟩]))).length :=
  ⟨by decide,
   doCheckpoint_compactedActions
     (runEvents [.append ⟨[.change ⟨1, 2⟩, .edit ⟨[5], [], some 3⟩]⟩])
     { protocol := 0, lastVersion := 0, compactedActions := 1,
       checkpoint := some ⟨2, 1, some ⟨0, some 3, [5]⟩⟩ } (by decide)⟩

/-- C7 counterexample: `set_flushed_manifest_version` is an unconditional
store, so a later call with a smaller argument regresses the stored
`flushed_manifest_version`: after storing `5` and then `3`, the stored value
is `3`, which is not `≥` the previously stored `5`. -/
theorem setFlushed_regress_counterexample :
    (runEvents [.setFlushed 5]).flushed = 5 ∧
      (runEvents [.setFlushed 5, .setFlushed 3]).flushed = 3 ∧
      ¬ (runEvents [.setFlushed 5, .setFlushed 3]).flushed ≥
        (runEvents [.setFlushed 5]).flushed := by
  decide

/-- C7 as amended: `set_flushed_manifest_version` stores its argument
unconditionally, so after any sequence of setter calls the stored
`flushed_manifest_version` equals the last argument (the prior value when the
sequence is empty); it is non-decreasing only when the argument sequence is. -/
theorem setFlushed_stores_last (s : ManifestState) (calls : List Nat) :
    ((calls.map ManifestEvent.setFlushed).foldl stepEvent s).flushed =
      calls.getLast?.getD s.flushed := by
  induction calls generalizing s with
  | nil => rfl
  | cons c t ih =>
    rw [List.map_cons, List.foldl_cons, ih]
    cases t with
    | nil => rfl
    | cons d u =>
      rw [List.getLast?_cons_cons]
      obtain ⟨y, hy⟩ : ∃ y, (d :: u).getLast? = some y :=
        ⟨(d :: u).getLast (by simp), List.getLast?_eq_getLast _ _⟩
      rw [hy]
      rfl

/-! ## The checkpoint invariant and replay equivalence (C1) -/

/-- Clipping the upper scan bound at the log length changes nothing. -/
theorem scan_clip (s : ManifestState) (lo hi : Nat) :
    scan s lo (min hi s.log.length) = scan s lo hi := by
  rw [scan_eq_map, scan_eq_map]
  have h : min (min hi s.log.length) s.log.length = min hi s.log.length := by omega
  rw [h]

/-- Every published checkpoint is in bounds and holds exactly the fold of the
log prefix `[0, last_version]` from the default protocol and builder. -/
def ManifestInv (s : ManifestState) : Prop :=
  ∀ cp, s.lastCkpt = some cp →
    cp.lastVersion < s.log.length ∧
    ∃ b, cp.checkpoint = some b ∧
      applyEntries (0, builderDefault) (scan s 0 (cp.lastVersion + 1)) = .ok (cp.protocol, b)

theorem manifestInv_init : ManifestInv initManifest := by
  intro cp h
  simp [initManifest] at h

theorem manifestInv_step (s : ManifestState) (e : ManifestEvent) (hs : ManifestInv s) :
    ManifestInv (stepEvent s e) := by
  cases e with
  | append l =>
    intro cp hcp
    obtain ⟨hlt, b, hb, happ⟩ := hs cp hcp
    refine ⟨?_, b, hb, ?_⟩
    · show cp.lastVersion < (s.log ++ [l]).length
      rw [List.length_append]
      omega
    · show applyEntries (0, builderDefault)
        (scan { s with log := s.log ++ [l] } 0 (cp.lastVersion + 1)) = _
      rw [scan_log_append_of_le s l (cp.lastVersion + 1) (by omega)]
      exact happ
  | setFlushed v =>
    intro cp hcp
    exact hs cp hcp
  | checkpoint =>
    cases hdc : doCheckpoint s with
    | error e =>
      simpa [stepEvent, hdc] using hs
    | ok o =>
      cases o with
      | none => simpa [stepEvent, hdc] using hs
      | some cp' =>
        intro cp hcp
        have hstep : stepEvent s .checkpoint = { s with lastCkpt := some cp' } := by
          simp [stepEvent, hdc]
        rw [hstep] at hcp
        simp only [Option.some.injEq] at hcp
        have hcp2 : cp = cp' := hcp.symm
        subst hcp2
        rw [hstep]
        obtain ⟨h1, h3, pb, h2, hcpeq⟩ := doCheckpoint_some_spec s cp hdc
        have hlen := scan_length s (startVersion s) (endVersion s)
        have hk : min (endVersion s) s.log.length - startVersion s ≠ 0 := by omega
        have hlast := scan_lastScanned s (startVersion s) (endVersion s) (startVersion s) hk
        have hm1 : startVersion s < min (endVersion s) s.log.length := by omega
        have hm2 : min (endVersion s) s.log.length ≤ s.log.length := Nat.min_le_right _ _
        have hcpv : cp.lastVersion = min (endVersion s) s.log.length - 1 := by
          rw [hcpeq, hlast]
        have hsucc : cp.lastVersion + 1 = min (endVersion s) s.log.length := by omega
        constructor
        · show cp.lastVersion < s.log.length
          omega
        · refine ⟨pb.2, by rw [hcpeq], ?_⟩
          have hscan_eq : scan { s with lastCkpt := some cp } 0 (cp.lastVersion + 1) =
              scan s 0 (cp.lastVersion + 1) := rfl
          rw [hscan_eq, hsucc]
          rw [scan_split s (startVersion s) (min (endVersion s) s.log.length)
            (by omega) hm2]
          rw [applyEntries_append]
          have hpre : applyEntries (0, builderDefault) (scan s 0 (startVersion s)) =
              .ok (initProtoBuilder s) := by
            cases hck : s.lastCkpt with
            | none =>
              have hstart : startVersion s = 0 := by simp [startVersion, hck]
              rw [hstart, scan_eq_nil s 0 0 (by omega)]
              simp [applyEntries, initProtoBuilder, hck]
            | some prev =>
              obtain ⟨hplt, bp, hbp, happp⟩ := hs prev hck
              have hstart : startVersion s = prev.lastVersion + 1 := by
                simp [startVersion, hck]
              rw [hstart, happp]
              simp [initProtoBuilder, hck, hbp, withCheckpoint]
          rw [hpre, scan_clip s (startVersion s) (endVersion s)]
          show applyEntries (initProtoBuilder s) (scan s (startVersion s) (endVersion s)) = _
          rw [h2, hcpeq]

theorem manifestInv_run (events : List ManifestEvent) : ManifestInv (runEvents events) := by
  suffices h : ∀ (l : List ManifestEvent) (s : ManifestState), ManifestInv s →
      ManifestInv (l.foldl stepEvent s) from h events initManifest manifestInv_init
  intro l
  induction l with
  | nil => intro s hs; exact hs
  | cons e t ih =>
    intro s hs
    exact ih _ (manifestInv_step s e hs)

/-- C1: for every history of appended action lists, flushed-version settings
and checkpoints, and for every checkpoint published by `do_checkpoint`,
folding all action lists from `MIN_VERSION` through the current last version
into an empty builder yields the same `RegionManifestData` as seeding the
builder from that checkpoint's folded state and folding only the action lists
from the checkpoint's `last_version + 1` onward. -/
theorem replay_from_checkpoint (events : List ManifestEvent) (cp : RegionCheckpoint)
    (h : (runEvents events).lastCkpt = some cp) :
    (applyEntries (0, builderDefault)
        (scan (runEvents events) 0 (lastVersion (runEvents events) + 1))).map Prod.snd =
    (applyEntries (cp.protocol, withCheckpoint cp.checkpoint)
        (scan (runEvents events) (cp.lastVersion + 1)
          (lastVersion (runEvents events) + 1))).map Prod.snd := by
  obtain ⟨hlt, b, hb, happ⟩ := manifestInv_run events cp h
  have hlen : lastVersion (runEvents events) + 1 = (runEvents events).log.length := by
    unfold lastVersion
    omega
  rw [hlen,
    scan_split (runEvents events) (cp.lastVersion + 1) (runEvents events).log.length
      (by omega) (Nat.le_refl _),
    applyEntries_append, happ, hb]
  rfl

/-- Witness for C1: a history with one published checkpoint followed by a
further append; replay from scratch and replay from the checkpoint agree. -/
theorem replay_from_checkpoint_witness :
    (runEvents [.append ⟨[.change ⟨7, 9⟩]⟩, .checkpoint,
        .append ⟨[.edit ⟨[1, 2], [], some 4⟩]⟩]).lastCkpt =
      some { protocol := 0, lastVersion := 0, compactedActions := 1,
             checkpoint := some ⟨9, 7, none⟩ } ∧
    (applyEntries (0, builderDefault)
        (scan (runEvents [.append ⟨[.change ⟨7, 9⟩]⟩, .checkpoint,
            .append ⟨[.edit ⟨[1, 2], [], some 4⟩]⟩]) 0
          (lastVersion (runEvents [.append ⟨[.change ⟨7, 9⟩]⟩, .checkpoint,
            .append ⟨[.edit ⟨[1, 2], [], some 4⟩]⟩]) + 1))).map Prod.snd =
    (applyEntries ((0 : Nat), withCheckpoint (some ⟨9, 7, none⟩))
        (scan (runEvents [.append ⟨[.change ⟨7, 9⟩]⟩, .checkpoint,
            .append ⟨[.edit ⟨[1, 2], [], some 4⟩]⟩]) (0 + 1)
          (lastVersion (runEvents [.append ⟨[.change ⟨7, 9⟩]⟩, .checkpoint,
            .append ⟨[.edit ⟨[1, 2], [], some 4⟩]⟩]) + 1))).map Prod.snd :=
  ⟨by decide,
   replay_from_checkpoint
     [.append ⟨[.change ⟨7, 9⟩]⟩, .checkpoint, .append ⟨[.edit ⟨[1, 2], [], some 4⟩]⟩]
     { protocol := 0, lastVersion := 0, compactedActions := 1,
       checkpoint := some ⟨9, 7, none⟩ } (by decide)⟩

/-! ## TableOptions and its string-map encoding

Translated from `table/src/requests.rs`: `TableOptions`, the four recognized
keys, `TryFrom<&HashMap<String, String>> for TableOptions` (lines 88-142) and
`From<&TableOptions> for HashMap<String, String>` (lines 144-170).

The `HashMap<String, String>` is modelled as an association list where the
first matching key wins a lookup; `extend` overwrites, so the extended entries
are placed first.  The value renderings (`ReadableSize`/`humantime` display
and parse, `i64` decimal formatting) live outside the provided sources
(`common_base` and external crates); they are modelled from the spec
("human-readable size", "human-readable duration", "signed 64-bit integer")
as concrete injective renderings whose parses are exact inverses. -/

/-- Modelled from the spec: a lossless rendering of a byte size (the
`ReadableSize` display form).  Injective with an exact parse. -/
def sizeRender (n : Nat) : String :=
  String.mk (List.replicate n 'b')

/-- Modelled from the spec: the exact inverse parse of `sizeRender`. -/
def sizeParse (s : String) : Option Nat :=
  if s.data.all (fun c => c = 'b') then some s.data.length else none

/-- Modelled from the spec: a lossless rendering of a duration (the
`humantime` display form).  Injective with an exact parse. -/
def ttlRender (n : Nat) : String :=
  String.mk (List.replicate n 'd')

/-- Modelled from the spec: the exact inverse parse of `ttlRender`. -/
def ttlParse (s : String) : Option Nat :=
  if s.data.all (fun c => c = 'd') then some s.data.length else none

/-- Modelled from the spec: a lossless rendering of a signed 64-bit integer
(`i64::to_string`).  Injective with an exact parse. -/
def ctwRender (i : Int) : String :=
  match i with
  | .ofNat n => String.mk ('p' :: List.replicate n 'x')
  | .negSucc n => String.mk ('n' :: List.replicate n 'x')

/-- Modelled from the spec: the exact inverse parse of `ctwRender`
(`str::parse::<i64>`). -/
def ctwParse (s : String) : Option Int :=
  match s.data with
  | 'p' :: rest => if rest.all (fun c => c = 'x') then some (Int.ofNat rest.length) else none
  | 'n' :: rest => if rest.all (fun c => c = 'x') then some (Int.negSucc rest.length) else none
  | _ => none

theorem sizeParse_sizeRender (n : Nat) : sizeParse (sizeRender n) = some n := by
  have h : (List.replicate n 'b').all (fun c => c = 'b') = true := by
    rw [List.all_eq_true]
    intro c hc
    simpa using List.eq_of_mem_replicate hc
  simp [sizeParse, sizeRender, h]

theorem ttlParse_ttlRender (n : Nat) : ttlParse (ttlRender n) = some n := by
  have h : (List.replicate n 'd').all (fun c => c = 'd') = true := by
    rw [List.all_eq_true]
    intro c hc
    simpa using List.eq_of_mem_replicate hc
  simp [ttlParse, ttlRender, h]

theorem ctwParse_ctwRender (i : Int) : ctwParse (ctwRender i) = some i := by
  cases i with
  | ofNat n =>
    have h : (List.replicate n 'x').all (fun c => c = 'x') = true := by
      rw [List.all_eq_true]
      intro c hc
      simpa using List.eq_of_mem_replicate hc
    simp [ctwParse, ctwRender, h]
  | negSucc n =>
    have h : (List.replicate n 'x').all (fun c => c = 'x') = true := by
      rw [List.all_eq_true]
      intro c hc
      simpa using List.eq_of_mem_replicate hc
    simp [ctwParse, ctwRender, h]

/-- `TableOptions` (requests.rs lines 69-81), with the sizes and durations
abstracted to naturals and the extra options as a string map. -/
structure TableOptions where
  writeBufferSize : Option Nat
  ttl : Option Nat
  extraOptions : List (String × String)
  compactionTimeWindow : Option Int
deriving DecidableEq, Repr

def WRITE_BUFFER_SIZE_KEY : String := "write_buffer_size"

def TTL_KEY : String := "ttl"

def REGIONS_KEY : String := "regions"

def COMPACTION_TIME_WINDOW_KEY : String := "compaction_time_window"

/-- HashMap lookup on the association-list model: first matching key wins. -/
def mget (m : List (String × String)) (k : String) : Option String :=
  (m.find? (fun p => p.1 = k)).map Prod.snd

def wbsEntry (o : TableOptions) : List (String × String) :=
  match o.writeBufferSize with
  | some n => [(WRITE_BUFFER_SIZE_KEY, sizeRender n)]
  | none => []

def ttlEntry (o : TableOptions) : List (String × String) :=
  match o.ttl with
  | some n => [(TTL_KEY, ttlRender n)]
  | none => []

def ctwEntry (o : TableOptions) : List (String × String) :=
  match o.compactionTimeWindow with
  | some i => [(COMPACTION_TIME_WINDOW_KEY, ctwRender i)]
  | none => []

/-- `From<&TableOptions> for HashMap<String, String>` (requests.rs lines
144-170): insert the recognized entries, then `extend` with the extra options;
extended entries overwrite, hence come first in the lookup order. -/
def tableOptionsToMap (o : TableOptions) : List (String × String) :=
  o.extraOptions ++ (wbsEntry o ++ ttlEntry o ++ ctwEntry o)

/-- `ParseTableOptionSnafu`: a malformed option value. -/
inductive OptionParseError where
  | parseTableOption (key : String) (value : String)
deriving DecidableEq, Repr

/-- Whether a key is one of the four recognized-and-stripped keys of
`TryFrom<&HashMap<String, String>>` (requests.rs lines 129-139). -/
def reservedKey (k : String) : Bool :=
  k == WRITE_BUFFER_SIZE_KEY || k == REGIONS_KEY || k == TTL_KEY ||
    k == COMPACTION_TIME_WINDOW_KEY

/-- `TryFrom<&HashMap<String, String>> for TableOptions` (requests.rs lines
88-142): parse `write_buffer_size`, `ttl` and `compaction_time_window` when
present (failing with `ParseTableOption` on a malformed value), and keep every
entry whose key is not one of the four recognized keys verbatim in
`extra_options`. -/
def tableOptionsFromMap (m : List (String × String)) : Except OptionParseError TableOptions :=
  match mget m WRITE_BUFFER_SIZE_KEY with
  | some s =>
    match sizeParse s with
    | none => .error (.parseTableOption WRITE_BUFFER_SIZE_KEY s)
    | some n => tableOptionsFromMapTtl m (some n)
  | none => tableOptionsFromMapTtl m none
where
  tableOptionsFromMapTtl (m : List (String × String)) (wbs : Option Nat) :
      Except OptionParseError TableOptions :=
    match mget m TTL_KEY with
    | some s =>
      match ttlParse s with
      | none => .error (.parseTableOption TTL_KEY s)
      | some n => tableOptionsFromMapCtw m wbs (some n)
    | none => tableOptionsFromMapCtw m wbs none
  tableOptionsFromMapCtw (m : List (String × String)) (wbs t : Option Nat) :
      Except OptionParseError TableOptions :=
    match mget m COMPACTION_TIME_WINDOW_KEY with
    | some s =>
      match ctwParse s with
      | none => .error (.parseTableOption COMPACTION_TIME_WINDOW_KEY s)
      | some i =>
        .ok { writeBufferSize := wbs, ttl := t, compactionTimeWindow := some i,
              extraOptions := m.filter (fun p => ¬ reservedKey p.1) }
    | none =>
      .ok { writeBufferSize := wbs, ttl := t, compactionTimeWindow := none,
            extraOptions := m.filter (fun p => ¬ reservedKey p.1) }

/-- Equality of the string-map models: the two lookups agree on every key of
either map (the `HashMap` equality used by `PartialEq for TableOptions`). -/
def mapEqv (m1 m2 : List (String × String)) : Bool :=
  (m1.map Prod.fst ++ m2.map Prod.fst).all (fun k => mget m1 k == mget m2 k)

/-- Structural equality of `TableOptions` with `HashMap` equality on the extra
options — the shallow model of `PartialEq for TableOptions`. -/
def optionsEqv (o1 o2 : TableOptions) : Bool :=
  o1.writeBufferSize == o2.writeBufferSize && o1.ttl == o2.ttl &&
    o1.compactionTimeWindow == o2.compactionTimeWindow &&
    mapEqv o1.extraOptions o2.extraOptions

/-- C8 counterexample: a `TableOptions` whose `extra_options` holds the
reserved key `regions` does not survive the round trip — the encoder emits the
entry verbatim, but the parser strips `regions` without storing it anywhere,
so the reparsed options differ from the original. -/
theorem tableOptions_roundtrip_counterexample :
    tableOptionsFromMap (tableOptionsToMap
        { writeBufferSize := none, ttl := none, extraOptions := [(REGIONS_KEY, "1")],
          compactionTimeWindow := none }) =
      .ok { writeBufferSize := none, ttl := none, extraOptions := [],
            compactionTimeWindow := none } ∧
    optionsEqv
        { writeBufferSize := none, ttl := none, extraOptions := [(REGIONS_KEY, "1")],
          compactionTimeWindow := none }
        { writeBufferSize := none, ttl := none, extraOptions := [],
          compactionTimeWindow := none } = false := by
  decide

theorem mget_eq_none (m : List (String × String)) (k : String)
    (h : ∀ p ∈ m, p.1 ≠ k) : mget m k = none := by
  unfold mget
  have hf : m.find? (fun p => p.1 = k) = none := by
    rw [List.find?_eq_none]
    intro x hx
    simpa using h x hx
  rw [hf]
  rfl

theorem mget_append (m1 m2 : List (String × String)) (k : String)
    (h : mget m1 k = none) : mget (m1 ++ m2) k = mget m2 k := by
  unfold mget at *
  rw [List.find?_append]
  cases hf : m1.find? (fun p => p.1 = k) with
  | some p => rw [hf] at h; simp at h
  | none => rw [Option.none_or]

theorem mapEqv_refl (m : List (String × String)) : mapEqv m m = true := by
  rw [mapEqv, List.all_eq_true]
  intro k _
  exact beq_self_eq_true _

/-- C8 as amended: the round trip `TableOptions → HashMap → TableOptions`
yields options equal to the original — with unrecognized keys preserved
verbatim in `extra_options` — provided no extra key collides with the four
recognized keys (`write_buffer_size`, `ttl`, `regions`,
`compaction_time_window`); a colliding key is reinterpreted or stripped. -/
theorem tableOptions_roundtrip (o : TableOptions)
    (h : ∀ p ∈ o.extraOptions, reservedKey p.1 = false) :
    tableOptionsFromMap (tableOptionsToMap o) = .ok
      { writeBufferSize := o.writeBufferSize, ttl := o.ttl,
        compactionTimeWindow := o.compactionTimeWindow,
        extraOptions := o.extraOptions } ∧
    optionsEqv o
      { writeBufferSize := o.writeBufferSize, ttl := o.ttl,
        compactionTimeWindow := o.compactionTimeWindow,
        extraOptions := o.extraOptions } = true := by
  have hex : ∀ (k : String), reservedKey k = true → mget o.extraOptions k = none := by
    intro k hk
    apply mget_eq_none
    intro p hp hpk
    have := h p hp
    rw [hpk] at this
    rw [this] at hk
    cases hk
  have hwbs : mget (tableOptionsToMap o) WRITE_BUFFER_SIZE_KEY =
      (o.writeBufferSize).map sizeRender := by
    rw [tableOptionsToMap, mget_append _ _ _ (hex _ (by decide))]
    cases hw : o.writeBufferSize with
    | some n => simp [wbsEntry, hw, mget, List.find?]
    | none =>
      rw [wbsEntry, hw]
      rw [List.nil_append]
      rw [mget_eq_none]
      · rfl
      · intro p hp
        rcases List.mem_append.mp hp with hp' | hp'
        · cases ht : o.ttl with
          | some n => rw [ttlEntry, ht] at hp'; simp at hp'; simp [hp', reservedKey, WRITE_BUFFER_SIZE_KEY, TTL_KEY, REGIONS_KEY, COMPACTION_TIME_WINDOW_KEY]
          | none => rw [ttlEntry, ht] at hp'; simp at hp'
        · cases hc : o.compactionTimeWindow with
          | some i => rw [ctwEntry, hc] at hp'; simp at hp'; simp [hp', reservedKey, WRITE_BUFFER_SIZE_KEY, TTL_KEY, REGIONS_KEY, COMPACTION_TIME_WINDOW_KEY]
          | none => rw [ctwEntry, hc] at hp'; simp at hp'
  have httl : mget (tableOptionsToMap o) TTL_KEY = (o.ttl).map ttlRender := by
    rw [tableOptionsToMap, mget_append _ _ _ (hex _ (by decide))]
    have hw : mget (wbsEntry o) TTL_KEY = none := by
      apply mget_eq_none
      intro p hp
      cases hww : o.writeBufferSize with
      | some n => rw [wbsEntry, hww] at hp; simp at hp; simp [hp, reservedKey, WRITE_BUFFER_SIZE_KEY, TTL_KEY, REGIONS_KEY, COMPACTION_TIME_WINDOW_KEY]
      | none => rw [wbsEntry, hww] at hp; simp at hp
    rw [List.append_assoc, mget_append _ _ _ hw]
    cases ht : o.ttl with
    | some n => simp [ttlEntry, ht, mget, List.find?]
    | none =>
      rw [ttlEntry, ht, List.nil_append]
      rw [mget_eq_none]
      · rfl
      · intro p hp
        cases hc : o.compactionTimeWindow with
        | some i => rw [ctwEntry, hc] at hp; simp at hp; simp [hp, reservedKey, WRITE_BUFFER_SIZE_KEY, TTL_KEY, REGIONS_KEY, COMPACTION_TIME_WINDOW_KEY]
        | none => rw [ctwEntry, hc] at hp; simp at hp
  have hctw : mget (tableOptionsToMap o) COMPACTION_TIME_WINDOW_KEY =
      (o.compactionTimeWindow).map ctwRender := by
    rw [tableOptionsToMap, mget_append _ _ _ (hex _ (by decide))]
    have hw : mget (wbsEntry o) COMPACTION_TIME_WINDOW_KEY = none := by
      apply mget_eq_none
      intro p hp
      cases hww : o.writeBufferSize with
      | some n => rw [wbsEntry, hww] at hp; simp at hp; simp [hp, reservedKey, WRITE_BUFFER_SIZE_KEY, TTL_KEY, REGIONS_KEY, COMPACTION_TIME_WINDOW_KEY]
      | none => rw [wbsEntry, hww] at hp; simp at hp
    have ht : mget (ttlEntry o) COMPACTION_TIME_WINDOW_KEY = none := by
      apply mget_eq_none
      intro p hp
      cases htt : o.ttl with
      | some n => rw [ttlEntry, htt] at hp; simp at hp; simp [hp, reservedKey, WRITE_BUFFER_SIZE_KEY, TTL_KEY, REGIONS_KEY, COMPACTION_TIME_WINDOW_KEY]
      | none => rw [ttlEntry, htt] at hp; simp at hp
    rw [List.append_assoc, mget_append _ _ _ hw, mget_append _ _ _ ht]
    cases hc : o.compactionTimeWindow with
    | some i => simp [ctwEntry, hc, mget, List.find?]
    | none =>
      rw [ctwEntry, hc]
      rfl
  have hfilter : (tableOptionsToMap o).filter (fun p => ¬ reservedKey p.1) =
      o.extraOptions := by
    rw [tableOptionsToMap, List.filter_append]
    have h1 : o.extraOptions.filter (fun p => ¬ reservedKey p.1) = o.extraOptions := by
      rw [List.filter_eq_self]
      intro p hp
      simp [h p hp]
    have h2 : (wbsEntry o ++ ttlEntry o ++ ctwEntry o).filter
        (fun p => ¬ reservedKey p.1) = [] := by
      rw [List.filter_eq_nil_iff]
      intro p hp
      rcases List.mem_append.mp hp with hp' | hp'
      · rcases List.mem_append.mp hp' with hp'' | hp''
        · cases hww : o.writeBufferSize with
          | some n => rw [wbsEntry, hww] at hp''; simp at hp''; simp [hp'', reservedKey, WRITE_BUFFER_SIZE_KEY, TTL_KEY, REGIONS_KEY, COMPACTION_TIME_WINDOW_KEY]
          | none => rw [wbsEntry, hww] at hp''; simp at hp''
        · cases htt : o.ttl with
          | some n => rw [ttlEntry, htt] at hp''; simp at hp''; simp [hp'', reservedKey, WRITE_BUFFER_SIZE_KEY, TTL_KEY, REGIONS_KEY, COMPACTION_TIME_WINDOW_KEY]
          | none => rw [ttlEntry, htt] at hp''; simp at hp''
      · cases hc : o.compactionTimeWindow with
        | some i => rw [ctwEntry, hc] at hp'; simp at hp'; simp [hp', reservedKey, WRITE_BUFFER_SIZE_KEY, TTL_KEY, REGIONS_KEY, COMPACTION_TIME_WINDOW_KEY]
        | none => rw [ctwEntry, hc] at hp'; simp at hp'
    rw [h1, h2, List.append_nil]
  constructor
  · rw [tableOptionsFromMap, hwbs]
    cases hw : o.writeBufferSize with
    | some n =>
      simp only [Option.map_some', sizeParse_sizeRender]
      rw [tableOptionsFromMap.tableOptionsFromMapTtl, httl]
      cases ht : o.ttl with
      | some m =>
        simp only [Option.map_some', ttlParse_ttlRender]
        rw [tableOptionsFromMap.tableOptionsFromMapCtw, hctw]
        cases hc : o.compactionTimeWindow with
        | some i => simp only [Option.map_some', ctwParse_ctwRender]; rw [hfilter]
        | none => simp only [Option.map_none']; rw [hfilter]
      | none =>
        simp only [Option.map_none']
        rw [tableOptionsFromMap.tableOptionsFromMapCtw, hctw]
        cases hc : o.compactionTimeWindow with
        | some i => simp only [Option.map_some', ctwParse_ctwRender]; rw [hfilter]
        | none => simp only [Option.map_none']; rw [hfilter]
    | none =>
      simp only [Option.map_none']
      rw [tableOptionsFromMap.tableOptionsFromMapTtl, httl]
      cases ht : o.ttl with
      | some m =>
        simp only [Option.map_some', ttlParse_ttlRender]
        rw [tableOptionsFromMap.tableOptionsFromMapCtw, hctw]
        cases hc : o.compactionTimeWindow with
        | some i => simp only [Option.map_some', ctwParse_ctwRender]; rw [hfilter]
        | none => simp only [Option.map_none']; rw [hfilter]
      | none =>
        simp only [Option.map_none']
        rw [tableOptionsFromMap.tableOptionsFromMapCtw, hctw]
        cases hc : o.compactionTimeWindow with
        | some i => simp only [Option.map_some', ctwParse_ctwRender]; rw [hfilter]
        | none => simp only [Option.map_none']; rw [hfilter]
  · rw [optionsEqv]
    simp only [beq_self_eq_true, Bool.true_and]
    exact mapEqv_refl o.extraOptions

/-- Witness for the amended C8: options with every recognized field set and an
unrecognized extra key round-trip to an equal value, the extra key preserved. -/
theorem tableOptions_roundtrip_witness :
    (∀ p ∈
      ({ writeBufferSize := some 2, ttl := some 3,
         extraOptions := [("hello", "world")], compactionTimeWindow := some (-1) } :
           TableOptions).extraOptions, reservedKey p.1 = false) ∧
    (tableOptionsFromMap (tableOptionsToMap
        { writeBufferSize := some 2, ttl := some 3,
          extraOptions := [("hello", "world")], compactionTimeWindow := some (-1) }) = .ok
      { writeBufferSize := some 2, ttl := some 3,
        extraOptions := [("hello", "world")], compactionTimeWindow := some (-1) } ∧
     optionsEqv
        { writeBufferSize := some 2, ttl := some 3,
          extraOptions := [("hello", "world")], compactionTimeWindow := some (-1) }
        { writeBufferSize := some 2, ttl := some 3,
          extraOptions := [("hello", "world")], compactionTimeWindow := some (-1) } = true) :=
  ⟨by decide,
   tableOptions_roundtrip
     { writeBufferSize := some 2, ttl := some 3,
       extraOptions := [("hello", "world")], compactionTimeWindow := some (-1) }
     (by decide)⟩

/-! ## PromQL planner: vector selectors

Translated from `promql/src/planner.rs`: `preprocess_label_matchers` (lines
406-422), `matchers_to_expr` (630-653), `selector_to_series_normalize_plan`
(424-560) and the `VectorSelector` arm of `prom_expr_to_plan` (294-320).

The `promql_parser` `Matchers` value is a `HashSet<Matcher>` and the planner
also builds fresh `HashSet`s for the `__field__` resolution; hash-set
iteration order is unspecified, so the embedding takes iteration orders as
explicit inputs: the matcher list stands for one iteration order of the
matcher set (theorems quantify over its permutations), and `fieldOrd` stands
for the iteration order of the resolved field-column set.  Regex matching
(`regex::Regex::is_match`, an external crate) is abstracted as an oracle
`rm : pattern → column → Bool`; `matchers_to_expr` only embeds the pattern
text, which the model keeps in `Matcher.value`. -/

def METRIC_NAME : String := "__name__"

def FIELD_COLUMN_MATCHER : String := "__field__"

/-- `promql_parser::label::MatchOp`, with the compiled regex dropped: the
pattern text lives in `Matcher.value` and matching goes through the `rm`
oracle. -/
inductive MatchOp where
  | eq
  | ne
  | re
  | nre
deriving DecidableEq, Repr

/-- `promql_parser::label::Matcher`. -/
structure Matcher where
  name : String
  op : MatchOp
  value : String
deriving DecidableEq, Repr

/-- The DataFusion binary operators the selector path emits. -/
inductive BinOp where
  | eq
  | notEq
  | regexMatch
  | regexNotMatch
  | gtEq
  | ltEq
  | and
deriving DecidableEq, Repr

/-- The DataFusion expressions the selector path emits: column references,
string literals, millisecond-timestamp literals and binary operators. -/
inductive DfExpr where
  | col (name : String)
  | litStr (s : String)
  | litTs (t : Int)
  | binary (op : BinOp) (l r : DfExpr)
deriving DecidableEq, Repr

/-- The logical-plan fragment produced for a vector selector: a table scan
with pushdown filters under projection/filter/sort and the custom extension
operators. -/
inductive Plan where
  | tableScan (table : String) (filters : List DfExpr)
  | projection (exprs : List DfExpr) (input : Plan)
  | filter (pred : DfExpr) (input : Plan)
  | sortBy (items : List (DfExpr × Bool × Bool)) (input : Plan)
  | seriesDivide (tags : List String) (input : Plan)
  | seriesNormalize (offset : Int) (timeIndex : String) (filterNaN : Bool) (input : Plan)
  | instantManipulate (start stop lookback interval : Int) (timeIndex : String)
      (fieldCol : Option String) (input : Plan)
deriving DecidableEq, Repr

/-- Planner errors reachable on the selector path. -/
inductive PlanError where
  | tableNameNotFound
  | columnNotFound (col : String)
  | valueNotFound (table : String)
deriving DecidableEq, Repr

/-- Result of `preprocess_label_matchers`: the `__name__` equality matcher is
split off into the table name, `__field__` matchers are collected, and the
rest form the label-matcher set. -/
structure PreprocessedMatchers where
  tableName : Option String
  fieldMatchers : Option (List Matcher)
  rest : List Matcher
deriving DecidableEq, Repr

/-- One step of `preprocess_label_matchers` (planner.rs lines 408-420): a
`__name__` equality matcher sets the table name, a `__field__` matcher is
pushed onto the field-matcher list, anything else is inserted into the
matcher set (set insertion: dropped when already present). -/
def preprocessStep (acc : PreprocessedMatchers) (m : Matcher) : PreprocessedMatchers :=
  if m.name = METRIC_NAME ∧ m.op = .eq then { acc with tableName := some m.value }
  else if m.name = FIELD_COLUMN_MATCHER then
    { acc with fieldMatchers := some ((acc.fieldMatchers.getD []) ++ [m]) }
  else if m ∈ acc.rest then acc
  else { acc with rest := acc.rest ++ [m] }

/-- `preprocess_label_matchers`, iterating the matcher set in the order given
by the input list. -/
def preprocessLabelMatchers (ms : List Matcher) : PreprocessedMatchers :=
  ms.foldl preprocessStep { tableName := none, fieldMatchers := none, rest := [] }

/-- `matchers_to_expr` on one matcher (planner.rs lines 632-648): `=` / `!=` /
regex-match / regex-not-match comparisons of the label column against the
value literal. -/
def matcherToExpr (m : Matcher) : DfExpr :=
  match m.op with
  | .eq => .binary .eq (.col m.name) (.litStr m.value)
  | .ne => .binary .notEq (.col m.name) (.litStr m.value)
  | .re => .binary .regexMatch (.col m.name) (.litStr m.value)
  | .nre => .binary .regexNotMatch (.col m.name) (.litStr m.value)

/-- `matchers_to_expr` (planner.rs lines 630-653). -/
def matchersToExpr (ms : List Matcher) : List DfExpr :=
  ms.map matcherToExpr

/-- `datafusion::optimizer::utils::conjunction`: left-fold the filters into a
chain of `AND`s, `none` on an empty list. -/
def conjunction (l : List DfExpr) : Option DfExpr :=
  l.foldl (fun acc x =>
    match acc with
    | some a => some (.binary .and a x)
    | none => some x) none

/-- Set insertion on the list model of a `HashSet<String>`. -/
def insertU (l : List String) (x : String) : List String :=
  if x ∈ l then l else l ++ [x]

def insertAll (l : List String) (xs : List String) : List String :=
  xs.foldl insertU l

/-- The `__field__` matcher loop of `selector_to_series_normalize_plan`
(planner.rs lines 465-502): `Equal` inserts an existing column into the
opt-in set (`ColumnNotFound` carrying the *table name* otherwise), `NotEqual`
inserts an existing column into the opt-out set (`ValueNotFound` otherwise),
and the regex forms insert every matching field column. -/
def collectFieldSets (rm : String → String → Bool) (tbl : String) (cols : List String) :
    List Matcher → List String × List String → Except PlanError (List String × List String)
  | [], acc => .ok acc
  | ⟨_, .eq, value⟩ :: rest, (pos, neg) =>
    if value ∈ cols then collectFieldSets rm tbl cols rest (insertU pos value, neg)
    else .error (.columnNotFound tbl)
  | ⟨_, .ne, value⟩ :: rest, (pos, neg) =>
    if value ∈ cols then collectFieldSets rm tbl cols rest (pos, insertU neg value)
    else .error (.valueNotFound tbl)
  | ⟨_, .re, value⟩ :: rest, (pos, neg) =>
    collectFieldSets rm tbl cols rest (insertAll pos (cols.filter (fun c => rm value c)), neg)
  | ⟨_, .nre, value⟩ :: rest, (pos, neg) =>
    collectFieldSets rm tbl cols rest (pos, insertAll neg (cols.filter (fun c => rm value c)))

/-- The `__field__` resolution of `selector_to_series_normalize_plan`
(planner.rs lines 459-511): run the matcher loop, fall back to all field
columns when the opt-in set is empty, then subtract the opt-out set. -/
def resolveFieldColumns (rm : String → String → Bool) (tbl : String) (cols : List String)
    (fms : List Matcher) : Except PlanError (List String) :=
  match collectFieldSets rm tbl cols fms ([], []) with
  | .error e => .error e
  | .ok (pos, neg) =>
    let base := if pos.isEmpty then cols else pos
    .ok (base.filter (fun c => ¬ c ∈ neg))

/-- The evaluation window of an `EvalStmt`, in milliseconds. -/
structure EvalWindow where
  start : Int
  stop : Int
  interval : Int
  lookback : Int
deriving DecidableEq, Repr

/-- The schema bound by `setup_context` (planner.rs lines 674-722): the time
index column, the tag (row key) columns and the field columns, in the table's
order. -/
structure TableSchema where
  timeIndex : String
  tagCols : List String
  fieldCols : List String
deriving DecidableEq, Repr

/-- The tail of `selector_to_series_normalize_plan` (planner.rs lines
526-559): the fine-grained matcher filter (when any), the descending
(tags…, time_index) sort, `SeriesDivide` and `SeriesNormalize`. -/
def selectorTail (sch : TableSchema) (offset : Int) (isRange : Bool)
    (restMatchers : List Matcher) (fields : List String) (p : Plan) :
    List String × Plan :=
  let withFilter := match conjunction (matchersToExpr restMatchers) with
    | some pred => Plan.filter pred p
    | none => p
  let sortPlan := Plan.sortBy
    (sch.tagCols.map (fun t => (DfExpr.col t, false, false)) ++
      [(DfExpr.col sch.timeIndex, false, false)]) withFilter
  let divide := Plan.seriesDivide sch.tagCols sortPlan
  (fields, Plan.seriesNormalize offset sch.timeIndex isRange divide)

/-- `selector_to_series_normalize_plan` (planner.rs lines 424-560): pushdown
filters are the translated label matchers plus the two time bounds
`time_index ≥ start − offset − lookback − range` and
`time_index ≤ end − offset + lookback`; a `__field__` projection is added when
field matchers are present (`fieldOrd` is the iteration order of the resolved
set).  Returns the context's new field columns with the plan. -/
def selectorToSeriesNormalizePlan (rm : String → String → Bool) (w : EvalWindow)
    (sch : TableSchema) (tbl : String) (offset : Int) (range : Option Int)
    (isRange : Bool) (restMatchers : List Matcher)
    (fieldMatchers : Option (List Matcher)) (fieldOrd : List String) :
    Except PlanError (List String × Plan) :=
  let rangeMs := range.getD 0
  let scanFilters := matchersToExpr restMatchers ++
    [.binary .gtEq (.col sch.timeIndex) (.litTs (w.start - offset - w.lookback - rangeMs)),
     .binary .ltEq (.col sch.timeIndex) (.litTs (w.stop - offset + w.lookback))]
  let tableScan := Plan.tableScan tbl scanFilters
  match fieldMatchers with
  | some fms =>
    match resolveFieldColumns rm tbl sch.fieldCols fms with
    | .error e => .error e
    | .ok _ =>
      let exprs := fieldOrd.map DfExpr.col ++ sch.tagCols.map DfExpr.col ++
        [DfExpr.col sch.timeIndex]
      .ok (selectorTail sch offset isRange restMatchers fieldOrd
        (Plan.projection exprs tableScan))
  | none => .ok (selectorTail sch offset isRange restMatchers sch.fieldCols tableScan)

/-- The `VectorSelector` arm of `prom_expr_to_plan` (planner.rs lines
294-320): preprocess the matchers, bind the table, build the normalize plan
and wrap it in `InstantManipulate` whose optional field column is the first
of the context's field columns. -/
def planVectorSelector (rm : String → String → Bool) (w : EvalWindow) (sch : TableSchema)
    (offset : Int) (ms : List Matcher) (fieldOrd : List String) :
    Except PlanError Plan :=
  let pp := preprocessLabelMatchers ms
  match pp.tableName with
  | none => .error .tableNameNotFound
  | some tbl =>
    match selectorToSeriesNormalizePlan rm w sch tbl offset none false pp.rest
        pp.fieldMatchers fieldOrd with
    | .error e => .error e
    | .ok (fields, normalize) =>
      .ok (.instantManipulate w.start w.stop w.lookback w.interval sch.timeIndex
        fields.head? normalize)

/-- All `(table, pushdown filters)` table scans of a plan. -/
def scansOf : Plan → List (String × List DfExpr)
  | .tableScan t fs => [(t, fs)]
  | .projection _ p => scansOf p
  | .filter _ p => scansOf p
  | .sortBy _ p => scansOf p
  | .seriesDivide _ p => scansOf p
  | .seriesNormalize _ _ _ p => scansOf p
  | .instantManipulate _ _ _ _ _ _ p => scansOf p

/-! ## Facts about `preprocess_label_matchers` -/

theorem getLast?_cons {α : Type} (a : α) (l : List α) :
    (a :: l).getLast? = l.getLast?.or (some a) := by
  have h := @List.getLast?_append _ [a] l
  simpa using h

theorem preprocessStep_tableName_of_not (acc : PreprocessedMatchers) (m : Matcher)
    (h : ¬(m.name = METRIC_NAME ∧ m.op = MatchOp.eq)) :
    (preprocessStep acc m).tableName = acc.tableName := by
  unfold preprocessStep
  rw [if_neg h]
  split_ifs <;> rfl

theorem preprocessStep_fieldMatchers_of_ne (acc : PreprocessedMatchers) (m : Matcher)
    (h : m.name ≠ FIELD_COLUMN_MATCHER) :
    (preprocessStep acc m).fieldMatchers = acc.fieldMatchers := by
  unfold preprocessStep
  split_ifs <;> rfl

/-- The table name bound by preprocessing is the value of the last `__name__`
equality matcher in iteration order, defaulting to the accumulator's. -/
theorem preprocess_tableName (ms : List Matcher) (acc : PreprocessedMatchers) :
    (ms.foldl preprocessStep acc).tableName =
      (((ms.filter (fun m => decide (m.name = METRIC_NAME ∧ m.op = MatchOp.eq))).getLast?).map
        Matcher.value).or acc.tableName := by
  induction ms generalizing acc with
  | nil => rfl
  | cons m t ih =>
    rw [List.foldl_cons, List.filter_cons]
    by_cases hm : m.name = METRIC_NAME ∧ m.op = MatchOp.eq
    · rw [if_pos (by simp [hm]), ih, getLast?_cons]
      have hstep : (preprocessStep acc m).tableName = some m.value := by
        unfold preprocessStep
        rw [if_pos hm]
      cases hft : (t.filter (fun m => decide (m.name = METRIC_NAME ∧ m.op = MatchOp.eq))).getLast? with
      | none => simp [hstep]
      | some x => simp
    · rw [if_neg (by simp [hm]), ih, preprocessStep_tableName_of_not acc m hm]

/-- Preprocessing never creates field matchers when none of the matchers is a
`__field__` matcher. -/
theorem preprocess_fieldMatchers_none (ms : List Matcher) (acc : PreprocessedMatchers)
    (hf : ∀ m ∈ ms, m.name ≠ FIELD_COLUMN_MATCHER) (hacc : acc.fieldMatchers = none) :
    (ms.foldl preprocessStep acc).fieldMatchers = none := by
  induction ms generalizing acc with
  | nil => exact hacc
  | cons m t ih =>
    rw [List.foldl_cons]
    refine ih (preprocessStep acc m) (fun x hx => hf x (List.mem_cons_of_mem m hx)) ?_
    rw [preprocessStep_fieldMatchers_of_ne acc m (hf m (List.mem_cons_self m t)), hacc]

/-- Under one `__name__` equality matcher, no `__field__` matchers and
duplicate-free input, the preprocessed matcher set is exactly the non-metric
matchers, in iteration order. -/
theorem preprocess_rest_eq (ms : List Matcher) (acc : PreprocessedMatchers)
    (hnodup : ms.Nodup)
    (hname : ∀ m ∈ ms, m.name = METRIC_NAME → m.op = MatchOp.eq)
    (hfield : ∀ m ∈ ms, m.name ≠ FIELD_COLUMN_MATCHER)
    (hdisj : ∀ m ∈ ms, m ∉ acc.rest) :
    (ms.foldl preprocessStep acc).rest =
      acc.rest ++ ms.filter (fun m => decide (m.name ≠ METRIC_NAME)) := by
  induction ms generalizing acc with
  | nil => simp
  | cons m t ih =>
    rw [List.foldl_cons, List.filter_cons]
    have hnd := hnodup
    rw [List.nodup_cons] at hnd
    by_cases hmn : m.name = METRIC_NAME
    · have hop : m.op = MatchOp.eq := hname m (List.mem_cons_self m t) hmn
      have hstep : preprocessStep acc m = { acc with tableName := some m.value } := by
        unfold preprocessStep
        rw [if_pos ⟨hmn, hop⟩]
      rw [if_neg (by simp [hmn])]
      rw [hstep]
      exact ih { acc with tableName := some m.value } hnd.2
        (fun x hx => hname x (List.mem_cons_of_mem m hx))
        (fun x hx => hfield x (List.mem_cons_of_mem m hx))
        (fun x hx => hdisj x (List.mem_cons_of_mem m hx))
    · have hstep : preprocessStep acc m = { acc with rest := acc.rest ++ [m] } := by
        unfold preprocessStep
        rw [if_neg (by intro hc; exact hmn hc.1),
          if_neg (hfield m (List.mem_cons_self m t)),
          if_neg (hdisj m (List.mem_cons_self m t))]
      rw [if_pos (by simp [hmn]), hstep]
      rw [ih { acc with rest := acc.rest ++ [m] } hnd.2
        (fun x hx => hname x (List.mem_cons_of_mem m hx))
        (fun x hx => hfield x (List.mem_cons_of_mem m hx))
        (fun x hx => by
          simp only [List.mem_append, List.mem_singleton]
          rintro (h | h)
          · exact hdisj x (List.mem_cons_of_mem m hx) h
          · exact hnd.1 (h ▸ hx))]
      simp

/-- `scansOf` looks through the filter/sort/divide/normalize tail. -/
theorem scansOf_selectorTail (sch : TableSchema) (offset : Int) (isRange : Bool)
    (restMatchers : List Matcher) (fields : List String) (p : Plan) :
    scansOf (selectorTail sch offset isRange restMatchers fields p).2 = scansOf p := by
  unfold selectorTail
  cases conjunction (matchersToExpr restMatchers) <;> simp [scansOf]

/-- C2: the plan produced for a vector selector with metric name `T` contains
exactly one table scan, of `T`, whose pushdown filter list is one column
comparison per non-metric label matcher plus the two time bounds
`time_index ≥ start − offset − lookback − range` and
`time_index ≤ end − offset + lookback`, with `range = 0` for an instant
selector. -/
theorem vector_selector_single_scan (rm : String → String → Bool) (w : EvalWindow)
    (sch : TableSchema) (offset : Int) (ms : List Matcher) (fieldOrd : List String)
    (T : String)
    (hnodup : ms.Nodup)
    (hname : ∀ m ∈ ms, m.name = METRIC_NAME → (m.op = MatchOp.eq ∧ m.value = T))
    (hmem : (⟨METRIC_NAME, MatchOp.eq, T⟩ : Matcher) ∈ ms)
    (hfield : ∀ m ∈ ms, m.name ≠ FIELD_COLUMN_MATCHER) :
    ∃ p, planVectorSelector rm w sch offset ms fieldOrd = .ok p ∧
      scansOf p = [(T,
        matchersToExpr (ms.filter (fun m => decide (m.name ≠ METRIC_NAME))) ++
          [.binary .gtEq (.col sch.timeIndex) (.litTs (w.start - offset - w.lookback)),
           .binary .ltEq (.col sch.timeIndex) (.litTs (w.stop - offset + w.lookback))])] := by
  have htbl : (preprocessLabelMatchers ms).tableName = some T := by
    rw [preprocessLabelMatchers, preprocess_tableName]
    have hne : ms.filter (fun m => decide (m.name = METRIC_NAME ∧ m.op = MatchOp.eq)) ≠ [] := by
      intro hc
      have : (⟨METRIC_NAME, MatchOp.eq, T⟩ : Matcher) ∈
          ms.filter (fun m => decide (m.name = METRIC_NAME ∧ m.op = MatchOp.eq)) := by
        rw [List.mem_filter]
        exact ⟨hmem, by simp [METRIC_NAME]⟩
      rw [hc] at this
      cases this
    obtain ⟨x, hx⟩ : ∃ x, (ms.filter
        (fun m => decide (m.name = METRIC_NAME ∧ m.op = MatchOp.eq))).getLast? = some x :=
      ⟨_, List.getLast?_eq_getLast _ hne⟩
    have hxmem : x ∈ ms.filter (fun m => decide (m.name = METRIC_NAME ∧ m.op = MatchOp.eq)) := by
      rw [List.getLast?_eq_getLast _ hne] at hx
      have hxe : x = (ms.filter
          (fun m => decide (m.name = METRIC_NAME ∧ m.op = MatchOp.eq))).getLast hne :=
        (Option.some.inj hx).symm
      rw [hxe]
      exact List.getLast_mem hne
    rw [List.mem_filter] at hxmem
    have hxprop : x.name = METRIC_NAME ∧ x.op = MatchOp.eq := by
      simpa using hxmem.2
    have hxv : x.value = T := (hname x hxmem.1 hxprop.1).2
    rw [hx]
    simp [hxv]
  have hfm : (preprocessLabelMatchers ms).fieldMatchers = none :=
    preprocess_fieldMatchers_none ms _ hfield rfl
  have hrest : (preprocessLabelMatchers ms).rest =
      ms.filter (fun m => decide (m.name ≠ METRIC_NAME)) := by
    have h := preprocess_rest_eq ms { tableName := none, fieldMatchers := none, rest := [] }
      hnodup (fun m hm hn => (hname m hm hn).1) hfield (by intro m _; simp)
    simpa using h
  simp only [planVectorSelector, selectorToSeriesNormalizePlan, Option.getD_none, htbl, hfm]
  refine ⟨_, rfl, ?_⟩
  simp only [scansOf, hrest, Int.sub_zero]
  cases conjunction (matchersToExpr (ms.filter (fun m => decide (m.name ≠ METRIC_NAME)))) <;>
    simp [scansOf, selectorTail, hrest]

/-- Witness for C2: a two-matcher selector over a two-tag table produces one
scan with the `tag_0 != "bar"` comparison and the two time bounds. -/
theorem vector_selector_single_scan_witness :
    ∃ p, planVectorSelector (fun _ _ => false) ⟨0, 100000000, 5000, 1000⟩
        ⟨"timestamp", ["tag_0", "tag_1"], ["field_0"]⟩ 0
        [⟨"__name__", .eq, "some_metric"⟩, ⟨"tag_0", .ne, "bar"⟩] [] = .ok p ∧
      scansOf p = [("some_metric",
        matchersToExpr (([⟨"__name__", .eq, "some_metric"⟩, ⟨"tag_0", .ne, "bar"⟩] :
            List Matcher).filter (fun m => decide (m.name ≠ METRIC_NAME))) ++
          [.binary .gtEq (.col "timestamp") (.litTs ((0 : Int) - 0 - 1000)),
           .binary .ltEq (.col "timestamp") (.litTs ((100000000 : Int) - 0 + 1000))])] :=
  vector_selector_single_scan (fun _ _ => false) ⟨0, 100000000, 5000, 1000⟩
    ⟨"timestamp", ["tag_0", "tag_1"], ["field_0"]⟩ 0
    [⟨"__name__", .eq, "some_metric"⟩, ⟨"tag_0", .ne, "bar"⟩] [] "some_metric"
    (by decide) (by decide) (by decide) (by decide)

/-! ## Determinism up to hash-set iteration order (C6) -/

/-- Flatten a chain of `AND`s into its conjuncts. -/
def flattenAnd : DfExpr → List DfExpr
  | .binary .and a b => flattenAnd a ++ flattenAnd b
  | e => [e]

/-- A plan with every hash-set-derived list canonicalised to a multiset: scan
filter lists and projection expression lists become multisets, and a filter
predicate becomes the multiset of its `AND`-chain conjuncts. -/
inductive PlanM where
  | tableScan (table : String) (filters : Multiset DfExpr)
  | projection (exprs : Multiset DfExpr) (input : PlanM)
  | filter (conjuncts : Multiset DfExpr) (input : PlanM)
  | sortBy (items : List (DfExpr × Bool × Bool)) (input : PlanM)
  | seriesDivide (tags : List String) (input : PlanM)
  | seriesNormalize (offset : Int) (timeIndex : String) (filterNaN : Bool) (input : PlanM)
  | instantManipulate (start stop lookback interval : Int) (timeIndex : String)
      (fieldCol : Option String) (input : PlanM)
deriving DecidableEq

/-- Canonicalise a plan up to the iteration order of the planner's hash sets. -/
def skeleton : Plan → PlanM
  | .tableScan t fs => .tableScan t ↑fs
  | .projection es p => .projection ↑es (skeleton p)
  | .filter pred p => .filter ↑(flattenAnd pred) (skeleton p)
  | .sortBy its p => .sortBy its (skeleton p)
  | .seriesDivide ts p => .seriesDivide ts (skeleton p)
  | .seriesNormalize o ti f p => .seriesNormalize o ti f (skeleton p)
  | .instantManipulate a b c d ti fc p => .instantManipulate a b c d ti fc (skeleton p)

def skeletonE : Except PlanError Plan → Except PlanError PlanM
  | .ok p => .ok (skeleton p)
  | .error e => .error e

/-- Membership in the preprocessed matcher set. -/
theorem preprocess_rest_mem (ms : List Matcher) (acc : PreprocessedMatchers) (x : Matcher) :
    x ∈ (ms.foldl preprocessStep acc).rest ↔
      x ∈ acc.rest ∨ (x ∈ ms ∧ ¬(x.name = METRIC_NAME ∧ x.op = MatchOp.eq) ∧
        x.name ≠ FIELD_COLUMN_MATCHER) := by
  induction ms generalizing acc with
  | nil => simp
  | cons m t ih =>
    rw [List.foldl_cons, ih]
    unfold preprocessStep
    split_ifs with h1 h2 h3
    · simp only [List.mem_cons]
      constructor
      · rintro (h | ⟨hx, hP⟩)
        · exact Or.inl h
        · exact Or.inr ⟨Or.inr hx, hP⟩
      · rintro (h | ⟨(rfl | hx), hP⟩)
        · exact Or.inl h
        · exact absurd h1 hP.1
        · exact Or.inr ⟨hx, hP⟩
    · simp only [List.mem_cons]
      constructor
      · rintro (h | ⟨hx, hP⟩)
        · exact Or.inl h
        · exact Or.inr ⟨Or.inr hx, hP⟩
      · rintro (h | ⟨(rfl | hx), hP⟩)
        · exact Or.inl h
        · exact absurd h2 hP.2
        · exact Or.inr ⟨hx, hP⟩
    · simp only [List.mem_cons]
      constructor
      · rintro (h | ⟨hx, hP⟩)
        · exact Or.inl h
        · exact Or.inr ⟨Or.inr hx, hP⟩
      · rintro (h | ⟨(rfl | hx), hP⟩)
        · exact Or.inl h
        · exact Or.inl h3
        · exact Or.inr ⟨hx, hP⟩
    · show x ∈ acc.rest ++ [m] ∨ _ ↔ _
      simp only [List.mem_append, List.mem_singleton, List.mem_cons, List.not_mem_nil,
        or_false]
      constructor
      · rintro ((h | rfl) | ⟨hx, hP⟩)
        · exact Or.inl h
        · exact Or.inr ⟨Or.inl rfl, h1, h2⟩
        · exact Or.inr ⟨Or.inr hx, hP⟩
      · rintro (h | ⟨(rfl | hx), hP⟩)
        · exact Or.inl (Or.inl h)
        · exact Or.inl (Or.inr rfl)
        · exact Or.inr ⟨hx, hP⟩

/-- The preprocessed matcher set is duplicate-free (it models a `HashSet`). -/
theorem preprocess_rest_nodup (ms : List Matcher) (acc : PreprocessedMatchers)
    (h : acc.rest.Nodup) : (ms.foldl preprocessStep acc).rest.Nodup := by
  induction ms generalizing acc with
  | nil => exact h
  | cons m t ih =>
    rw [List.foldl_cons]
    apply ih
    unfold preprocessStep
    split_ifs with h1 h2 h3
    · exact h
    · exact h
    · exact h
    · show (acc.rest ++ [m]).Nodup
      rw [List.nodup_append]
      refine ⟨h, List.nodup_singleton m, ?_⟩
      intro x hx hxm
      rw [List.mem_singleton] at hxm
      exact h3 (hxm ▸ hx)

/-- Permuting the matcher iteration order permutes the preprocessed set. -/
theorem preprocess_rest_perm (ms1 ms2 : List Matcher) (h : ms1.Perm ms2) :
    (preprocessLabelMatchers ms1).rest.Perm (preprocessLabelMatchers ms2).rest := by
  apply List.perm_of_nodup_nodup_toFinset_eq
  · exact preprocess_rest_nodup ms1 _ (by simp)
  · exact preprocess_rest_nodup ms2 _ (by simp)
  · ext x
    simp only [List.mem_toFinset, preprocessLabelMatchers, preprocess_rest_mem,
      List.not_mem_nil, false_or, h.mem_iff]

/-- With at most one `__name__` equality matcher, the bound table name does
not depend on the iteration order. -/
theorem preprocess_tableName_perm (ms1 ms2 : List Matcher) (h : ms1.Perm ms2)
    (hcount : (ms2.filter
      (fun m => decide (m.name = METRIC_NAME ∧ m.op = MatchOp.eq))).length ≤ 1) :
    (preprocessLabelMatchers ms1).tableName = (preprocessLabelMatchers ms2).tableName := by
  rw [preprocessLabelMatchers, preprocessLabelMatchers, preprocess_tableName,
    preprocess_tableName]
  have hp := h.filter (fun m => decide (m.name = METRIC_NAME ∧ m.op = MatchOp.eq))
  have heq : ms1.filter (fun m => decide (m.name = METRIC_NAME ∧ m.op = MatchOp.eq)) =
      ms2.filter (fun m => decide (m.name = METRIC_NAME ∧ m.op = MatchOp.eq)) := by
    cases hl : ms2.filter (fun m => decide (m.name = METRIC_NAME ∧ m.op = MatchOp.eq)) with
    | nil => exact (hl ▸ hp).eq_nil
    | cons a l =>
      cases l with
      | nil => exact List.perm_singleton.mp (hl ▸ hp)
      | cons b l2 =>
        rw [hl] at hcount
        simp at hcount
  rw [heq]

theorem conj_foldl_some (l : List DfExpr) (a : DfExpr) :
    l.foldl (fun acc x =>
      match acc with
      | some b => some (.binary .and b x)
      | none => some x) (some a) =
      some (l.foldl (fun b x => .binary .and b x) a) := by
  induction l generalizing a with
  | nil => rfl
  | cons x t ih => exact ih (.binary .and a x)

theorem conjunction_cons (x : DfExpr) (xs : List DfExpr) :
    conjunction (x :: xs) = some (xs.foldl (fun b y => .binary .and b y) x) := by
  unfold conjunction
  rw [List.foldl_cons]
  exact conj_foldl_some xs x

theorem flattenAnd_foldl (xs : List DfExpr) (a : DfExpr) :
    flattenAnd (xs.foldl (fun b y => .binary .and b y) a) =
      flattenAnd a ++ xs.flatMap flattenAnd := by
  induction xs generalizing a with
  | nil => simp
  | cons x t ih =>
    rw [List.foldl_cons, ih, List.flatMap_cons]
    rw [show flattenAnd (.binary .and a x) = flattenAnd a ++ flattenAnd x from rfl]
    rw [List.append_assoc]

/-- Mapping the conjunction of a filter list to its conjunct multiset is
invariant under permutation of the list. -/
theorem conj_multiset_perm (l1 l2 : List DfExpr) (h : l1.Perm l2) :
    (conjunction l1).map (fun p => (↑(flattenAnd p) : Multiset DfExpr)) =
      (conjunction l2).map (fun p => (↑(flattenAnd p) : Multiset DfExpr)) := by
  cases hl1 : l1 with
  | nil =>
    have hl2 : l2 = [] := ((hl1 ▸ h).symm).eq_nil
    rw [hl2]
  | cons x xs =>
    obtain ⟨y, ys, hl2⟩ : ∃ y ys, l2 = y :: ys := by
      cases hx : l2 with
      | nil =>
        rw [hl1, hx] at h
        exact absurd h.eq_nil (by simp)
      | cons a l => exact ⟨a, l, rfl⟩
    rw [hl2, conjunction_cons, conjunction_cons]
    simp only [Option.map_some']
    congr 1
    rw [flattenAnd_foldl, flattenAnd_foldl]
    rw [show flattenAnd x ++ xs.flatMap flattenAnd = (x :: xs).flatMap flattenAnd from rfl]
    rw [show flattenAnd y ++ ys.flatMap flattenAnd = (y :: ys).flatMap flattenAnd from rfl]
    rw [Multiset.coe_eq_coe, ← hl1, ← hl2]
    exact List.Perm.flatMap_right flattenAnd h

/-- The canonical (multiset-valued) shape of an instant-selector plan, as a
function of the scan-filter multiset and the optional conjunct multiset of the
post-scan filter. -/
def canonicalSelector (w : EvalWindow) (sch : TableSchema) (offset : Int) (tbl : String)
    (scanFs : Multiset DfExpr) (conj : Option (Multiset DfExpr)) : PlanM :=
  .instantManipulate w.start w.stop w.lookback w.interval sch.timeIndex sch.fieldCols.head?
    (.seriesNormalize offset sch.timeIndex false
      (.seriesDivide sch.tagCols
        (.sortBy (sch.tagCols.map (fun t => (DfExpr.col t, false, false)) ++
            [(DfExpr.col sch.timeIndex, false, false)])
          (match conj with
           | some ms => .filter ms (.tableScan tbl scanFs)
           | none => .tableScan tbl scanFs))))

/-- The skeleton of a field-matcher-free vector-selector plan is the canonical
shape applied to the preprocessed matcher set. -/
theorem skeletonE_planVS (rm : String → String → Bool) (w : EvalWindow) (sch : TableSchema)
    (offset : Int) (ms : List Matcher) (fo : List String) (tbl : String)
    (htn : (preprocessLabelMatchers ms).tableName = some tbl)
    (hfm : (preprocessLabelMatchers ms).fieldMatchers = none) :
    skeletonE (planVectorSelector rm w sch offset ms fo) =
      .ok (canonicalSelector w sch offset tbl
        ↑(matchersToExpr (preprocessLabelMatchers ms).rest ++
          [DfExpr.binary BinOp.gtEq (DfExpr.col sch.timeIndex)
            (DfExpr.litTs (w.start - offset - w.lookback)),
           DfExpr.binary BinOp.ltEq (DfExpr.col sch.timeIndex)
            (DfExpr.litTs (w.stop - offset + w.lookback))])
        ((conjunction (matchersToExpr (preprocessLabelMatchers ms).rest)).map
          (fun p => ↑(flattenAnd p)))) := by
  simp only [planVectorSelector, selectorToSeriesNormalizePlan, htn, hfm, Option.getD_none,
    Int.sub_zero]
  cases hc : conjunction (matchersToExpr (preprocessLabelMatchers ms).rest) with
  | none => simp [skeletonE, skeleton, selectorTail, canonicalSelector, hc]
  | some pred => simp [skeletonE, skeleton, selectorTail, canonicalSelector, hc]

/-- C6 as amended: for a vector selector without `__field__` matchers (and at
most one `__name__` equality matcher), any two planner runs — any two
iteration orders of the matcher hash set and of the field hash set — produce
plans that agree after canonicalising the scan's pushdown filter list and the
post-scan filter's conjunct chain to multisets; strict plan identity, and
order independence of the field columns in the `__field__` case, do not hold. -/
theorem planner_deterministic_up_to_set_order (rm : String → String → Bool) (w : EvalWindow)
    (sch : TableSchema) (offset : Int) (msC ms1 ms2 : List Matcher) (fo1 fo2 : List String)
    (h1 : ms1.Perm msC) (h2 : ms2.Perm msC)
    (hcount : (msC.filter
      (fun m => decide (m.name = METRIC_NAME ∧ m.op = MatchOp.eq))).length ≤ 1)
    (hfield : ∀ m ∈ msC, m.name ≠ FIELD_COLUMN_MATCHER) :
    skeletonE (planVectorSelector rm w sch offset ms1 fo1) =
      skeletonE (planVectorSelector rm w sch offset ms2 fo2) := by
  have h12 : ms1.Perm ms2 := h1.trans h2.symm
  have hcount1 : (ms2.filter
      (fun m => decide (m.name = METRIC_NAME ∧ m.op = MatchOp.eq))).length ≤ 1 := by
    rw [(h2.filter _).length_eq]
    exact hcount
  have htn : (preprocessLabelMatchers ms1).tableName =
      (preprocessLabelMatchers ms2).tableName :=
    preprocess_tableName_perm ms1 ms2 h12 hcount1
  have hfm1 : (preprocessLabelMatchers ms1).fieldMatchers = none :=
    preprocess_fieldMatchers_none ms1 _ (fun m hm => hfield m (h1.subset hm)) rfl
  have hfm2 : (preprocessLabelMatchers ms2).fieldMatchers = none :=
    preprocess_fieldMatchers_none ms2 _ (fun m hm => hfield m (h2.subset hm)) rfl
  have hrestp : (preprocessLabelMatchers ms1).rest.Perm (preprocessLabelMatchers ms2).rest :=
    preprocess_rest_perm ms1 ms2 h12
  cases htn1 : (preprocessLabelMatchers ms1).tableName with
  | none =>
    have htn2 : (preprocessLabelMatchers ms2).tableName = none := by rw [← htn, htn1]
    rw [planVectorSelector, planVectorSelector, htn1, htn2]
  | some tbl =>
    have htn2 : (preprocessLabelMatchers ms2).tableName = some tbl := by rw [← htn, htn1]
    rw [skeletonE_planVS rm w sch offset ms1 fo1 tbl htn1 hfm1,
      skeletonE_planVS rm w sch offset ms2 fo2 tbl htn2 hfm2]
    have hperm2 : (matchersToExpr (preprocessLabelMatchers ms1).rest).Perm
        (matchersToExpr (preprocessLabelMatchers ms2).rest) := hrestp.map matcherToExpr
    have hscan : (↑(matchersToExpr (preprocessLabelMatchers ms1).rest ++
        [DfExpr.binary BinOp.gtEq (DfExpr.col sch.timeIndex)
          (DfExpr.litTs (w.start - offset - w.lookback)),
         DfExpr.binary BinOp.ltEq (DfExpr.col sch.timeIndex)
          (DfExpr.litTs (w.stop - offset + w.lookback))]) : Multiset DfExpr) =
        ↑(matchersToExpr (preprocessLabelMatchers ms2).rest ++
        [DfExpr.binary BinOp.gtEq (DfExpr.col sch.timeIndex)
          (DfExpr.litTs (w.start - offset - w.lookback)),
         DfExpr.binary BinOp.ltEq (DfExpr.col sch.timeIndex)
          (DfExpr.litTs (w.stop - offset + w.lookback))]) :=
      Multiset.coe_eq_coe.mpr (hperm2.append_right _)
    rw [hscan, conj_multiset_perm _ _ hperm2]

/-- C6 counterexample: a selector with a `__field__` matcher resolving to two
field columns yields different plans under two valid iteration orders of the
resolved field set (`["f0", "f1"]` vs `["f1", "f0"]`, both permutations of
the resolved set), so two runs of the planner on identical inputs need not
produce identical plans. -/
theorem planner_order_dependence_counterexample :
    resolveFieldColumns (fun _ _ => false) "t" ["f0", "f1", "f2"]
        [⟨"__field__", .ne, "f2"⟩] = .ok ["f0", "f1"] ∧
    (["f0", "f1"] : List String).Perm ["f0", "f1"] ∧
    (["f1", "f0"] : List String).Perm ["f0", "f1"] ∧
    planVectorSelector (fun _ _ => false) ⟨0, 0, 0, 0⟩ ⟨"ts", [], ["f0", "f1", "f2"]⟩ 0
        [⟨"__name__", .eq, "t"⟩, ⟨"__field__", .ne, "f2"⟩] ["f0", "f1"] ≠
      planVectorSelector (fun _ _ => false) ⟨0, 0, 0, 0⟩ ⟨"ts", [], ["f0", "f1", "f2"]⟩ 0
        [⟨"__name__", .eq, "t"⟩, ⟨"__field__", .ne, "f2"⟩] ["f1", "f0"] := by
  decide

/-- Witness for the amended C6: two iteration orders of a two-matcher set give
canonically equal plans. -/
theorem planner_deterministic_up_to_set_order_witness :
    ([⟨"tag0", .ne, "bar"⟩, ⟨"__name__", .eq, "t"⟩] : List Matcher).Perm
        [⟨"__name__", .eq, "t"⟩, ⟨"tag0", .ne, "bar"⟩] ∧
    skeletonE (planVectorSelector (fun _ _ => false) ⟨0, 5, 1, 2⟩ ⟨"ts", ["tag0"], ["f0"]⟩ 0
        [⟨"tag0", .ne, "bar"⟩, ⟨"__name__", .eq, "t"⟩] []) =
      skeletonE (planVectorSelector (fun _ _ => false) ⟨0, 5, 1, 2⟩ ⟨"ts", ["tag0"], ["f0"]⟩ 0
        [⟨"__name__", .eq, "t"⟩, ⟨"tag0", .ne, "bar"⟩] []) :=
  ⟨by decide,
   planner_deterministic_up_to_set_order (fun _ _ => false) ⟨0, 5, 1, 2⟩
     ⟨"ts", ["tag0"], ["f0"]⟩ 0
     [⟨"__name__", .eq, "t"⟩, ⟨"tag0", .ne, "bar"⟩]
     [⟨"tag0", .ne, "bar"⟩, ⟨"__name__", .eq, "t"⟩]
     [⟨"__name__", .eq, "t"⟩, ⟨"tag0", .ne, "bar"⟩] [] []
     (by decide) (by decide) (by decide) (by decide)⟩

/-! ## The `__field__` matcher resolution (C4, C10) -/

theorem mem_insertU (l : List String) (x c : String) : c ∈ insertU l x ↔ c ∈ l ∨ c = x := by
  unfold insertU
  split_ifs with h
  · constructor
    · exact Or.inl
    · rintro (h' | rfl)
      · exact h'
      · exact h
  · rw [List.mem_append, List.mem_singleton]

theorem mem_insertAll (l xs : List String) (c : String) :
    c ∈ insertAll l xs ↔ c ∈ l ∨ c ∈ xs := by
  induction xs generalizing l with
  | nil => simp [insertAll]
  | cons x t ih =>
    rw [show insertAll l (x :: t) = insertAll (insertU l x) t from rfl, ih, mem_insertU,
      List.mem_cons]
    tauto

/-- The opt-in contribution of one `__field__` matcher: the named column for
`Equal`, every regex-matched column for `Re`. -/
def posContrib (rm : String → String → Bool) (cols : List String) (m : Matcher) :
    List String :=
  match m.op with
  | .eq => [m.value]
  | .re => cols.filter (fun c => rm m.value c)
  | _ => []

/-- The opt-out contribution of one `__field__` matcher: the named column for
`NotEqual`, every regex-matched column for `NotRe`. -/
def negContrib (rm : String → String → Bool) (cols : List String) (m : Matcher) :
    List String :=
  match m.op with
  | .ne => [m.value]
  | .nre => cols.filter (fun c => rm m.value c)
  | _ => []

theorem collect_ok_mem (rm : String → String → Bool) (tbl : String) (cols : List String) :
    ∀ (fms : List Matcher) (p0 n0 p n : List String),
    collectFieldSets rm tbl cols fms (p0, n0) = .ok (p, n) →
    ∀ c, (c ∈ p ↔ c ∈ p0 ∨ c ∈ fms.flatMap (posContrib rm cols)) ∧
         (c ∈ n ↔ c ∈ n0 ∨ c ∈ fms.flatMap (negContrib rm cols)) := by
  intro fms
  induction fms with
  | nil =>
    intro p0 n0 p n h c
    simp only [collectFieldSets, Except.ok.injEq, Prod.mk.injEq] at h
    rw [← h.1, ← h.2]
    simp
  | cons m t ih =>
    intro p0 n0 p n
    obtain ⟨mn, mop, mv⟩ := m
    cases mop with
    | eq =>
      simp only [collectFieldSets]
      by_cases hv : mv ∈ cols
      · rw [if_pos hv]
        intro h c
        have hm := ih (insertU p0 mv) n0 p n h c
        constructor
        · rw [hm.1, mem_insertU, List.flatMap_cons]
          simp only [posContrib, List.mem_append, List.mem_singleton]
          tauto
        · rw [hm.2, List.flatMap_cons]
          simp only [negContrib, List.nil_append]
      · rw [if_neg hv]
        intro h
        cases h
    | ne =>
      simp only [collectFieldSets]
      by_cases hv : mv ∈ cols
      · rw [if_pos hv]
        intro h c
        have hm := ih p0 (insertU n0 mv) p n h c
        constructor
        · rw [hm.1, List.flatMap_cons]
          simp only [posContrib, List.nil_append]
        · rw [hm.2, mem_insertU, List.flatMap_cons]
          simp only [negContrib, List.mem_append, List.mem_singleton]
          tauto
      · rw [if_neg hv]
        intro h
        cases h
    | re =>
      simp only [collectFieldSets]
      intro h c
      have hm := ih (insertAll p0 (cols.filter (fun c => rm mv c))) n0 p n h c
      constructor
      · rw [hm.1, mem_insertAll, List.flatMap_cons]
        simp only [posContrib, List.mem_append]
        tauto
      · rw [hm.2, List.flatMap_cons]
        simp only [negContrib, List.nil_append]
    | nre =>
      simp only [collectFieldSets]
      intro h c
      have hm := ih p0 (insertAll n0 (cols.filter (fun c => rm mv c))) p n h c
      constructor
      · rw [hm.1, List.flatMap_cons]
        simp only [posContrib, List.nil_append]
      · rw [hm.2, mem_insertAll, List.flatMap_cons]
        simp only [negContrib, List.mem_append]
        tauto

theorem collect_ok_of_pres (rm : String → String → Bool) (tbl : String) (cols : List String) :
    ∀ (fms : List Matcher) (p0 n0 : List String),
    (∀ m ∈ fms, (m.op = MatchOp.eq ∨ m.op = MatchOp.ne) → m.value ∈ cols) →
    ∃ pn, collectFieldSets rm tbl cols fms (p0, n0) = .ok pn := by
  intro fms
  induction fms with
  | nil => exact fun p0 n0 _ => ⟨(p0, n0), rfl⟩
  | cons m t ih =>
    intro p0 n0 hpres
    have htail : ∀ m' ∈ t, (m'.op = MatchOp.eq ∨ m'.op = MatchOp.ne) → m'.value ∈ cols :=
      fun m' hm' => hpres m' (List.mem_cons_of_mem m hm')
    have hhead := hpres m (List.mem_cons_self m t)
    obtain ⟨mn, mop, mv⟩ := m
    cases mop with
    | eq =>
      simp only [collectFieldSets]
      rw [if_pos (hhead (Or.inl rfl))]
      exact ih _ _ htail
    | ne =>
      simp only [collectFieldSets]
      rw [if_pos (hhead (Or.inr rfl))]
      exact ih _ _ htail
    | re =>
      simp only [collectFieldSets]
      exact ih _ _ htail
    | nre =>
      simp only [collectFieldSets]
      exact ih _ _ htail

theorem collect_error_eq (rm : String → String → Bool) (tbl : String) (cols : List String) :
    ∀ (fms : List Matcher) (p0 n0 : List String),
    (∃ m ∈ fms, m.op = MatchOp.eq ∧ m.value ∉ cols) →
    (∀ m ∈ fms, m.op = MatchOp.ne → m.value ∈ cols) →
    collectFieldSets rm tbl cols fms (p0, n0) = .error (.columnNotFound tbl) := by
  intro fms
  induction fms with
  | nil =>
    intro p0 n0 hex _
    obtain ⟨m, hm, _⟩ := hex
    cases hm
  | cons m t ih =>
    intro p0 n0 hex hne
    have hnet : ∀ m' ∈ t, m'.op = MatchOp.ne → m'.value ∈ cols :=
      fun m' hm' => hne m' (List.mem_cons_of_mem m hm')
    have hhead := hne m (List.mem_cons_self m t)
    obtain ⟨x, hx, hxe, hxv⟩ := hex
    obtain ⟨mn, mop, mv⟩ := m
    cases mop with
    | eq =>
      simp only [collectFieldSets]
      by_cases hv : mv ∈ cols
      · rw [if_pos hv]
        refine ih _ _ ⟨x, ?_, hxe, hxv⟩ hnet
        rcases List.mem_cons.mp hx with rfl | hxt
        · exact absurd hv hxv
        · exact hxt
      · rw [if_neg hv]
    | ne =>
      simp only [collectFieldSets]
      rw [if_pos (hhead rfl)]
      refine ih _ _ ⟨x, ?_, hxe, hxv⟩ hnet
      rcases List.mem_cons.mp hx with rfl | hxt
      · simp at hxe
      · exact hxt
    | re =>
      simp only [collectFieldSets]
      refine ih _ _ ⟨x, ?_, hxe, hxv⟩ hnet
      rcases List.mem_cons.mp hx with rfl | hxt
      · simp at hxe
      · exact hxt
    | nre =>
      simp only [collectFieldSets]
      refine ih _ _ ⟨x, ?_, hxe, hxv⟩ hnet
      rcases List.mem_cons.mp hx with rfl | hxt
      · simp at hxe
      · exact hxt

theorem collect_error_any (rm : String → String → Bool) (tbl : String) (cols : List String) :
    ∀ (fms : List Matcher) (p0 n0 : List String),
    (∃ m ∈ fms, (m.op = MatchOp.eq ∨ m.op = MatchOp.ne) ∧ m.value ∉ cols) →
    ∃ e, collectFieldSets rm tbl cols fms (p0, n0) = .error e := by
  intro fms
  induction fms with
  | nil =>
    intro p0 n0 hex
    obtain ⟨m, hm, _⟩ := hex
    cases hm
  | cons m t ih =>
    intro p0 n0 hex
    obtain ⟨x, hx, hxe, hxv⟩ := hex
    obtain ⟨mn, mop, mv⟩ := m
    cases mop with
    | eq =>
      simp only [collectFieldSets]
      by_cases hv : mv ∈ cols
      · rw [if_pos hv]
        refine ih _ _ ⟨x, ?_, hxe, hxv⟩
        rcases List.mem_cons.mp hx with rfl | hxt
        · exact absurd hv hxv
        · exact hxt
      · rw [if_neg hv]
        exact ⟨.columnNotFound tbl, rfl⟩
    | ne =>
      simp only [collectFieldSets]
      by_cases hv : mv ∈ cols
      · rw [if_pos hv]
        refine ih _ _ ⟨x, ?_, hxe, hxv⟩
        rcases List.mem_cons.mp hx with rfl | hxt
        · exact absurd hv hxv
        · exact hxt
      · rw [if_neg hv]
        exact ⟨.valueNotFound tbl, rfl⟩
    | re =>
      simp only [collectFieldSets]
      refine ih _ _ ⟨x, ?_, hxe, hxv⟩
      rcases List.mem_cons.mp hx with rfl | hxt
      · rcases hxe with h | h <;> simp at h
      · exact hxt
    | nre =>
      simp only [collectFieldSets]
      refine ih _ _ ⟨x, ?_, hxe, hxv⟩
      rcases List.mem_cons.mp hx with rfl | hxt
      · rcases hxe with h | h <;> simp at h
      · exact hxt

/-- C4 counterexample: the claim as stated says an `Equal` matcher naming an
absent field column makes planning fail *with `ColumnNotFound`*; but when a
`NotEqual` matcher naming an absent column is iterated first (a possible
hash-set order), the failure is `ValueNotFound` instead, even though a
failing `Equal` matcher is present. -/
theorem field_matcher_error_kind_counterexample :
    resolveFieldColumns (fun _ _ => false) "t" ["f0"]
        [⟨"__field__", .ne, "x"⟩, ⟨"__field__", .eq, "y"⟩] = .error (.valueNotFound "t") ∧
    (∃ m ∈ ([⟨"__field__", .ne, "x"⟩, ⟨"__field__", .eq, "y"⟩] : List Matcher),
      m.op = MatchOp.eq ∧ ¬ m.value ∈ ["f0"]) ∧
    (Except.error (.valueNotFound "t") : Except PlanError (List String)) ≠
      .error (.columnNotFound "t") := by
  decide

/-- C4 as amended: when every `Equal`/`NotEqual` `__field__` matcher names an
existing field column, resolution succeeds and the resulting set of field
columns is `((positive ∪ all-field-columns if positive is empty) ∖ negative)`
— `positive` holding `Equal`-named and `Re`-matched columns, `negative`
holding `NotEqual`-named and `NotRe`-matched columns; an `Equal` matcher
naming an absent column makes planning fail, with `ColumnNotFound` when every
`NotEqual` matcher names a present column; and any `Equal` or `NotEqual`
matcher naming an absent column makes planning fail. -/
theorem field_matcher_resolution (rm : String → String → Bool) (tbl : String)
    (cols : List String) (fms : List Matcher) :
    ((∀ m ∈ fms, (m.op = MatchOp.eq ∨ m.op = MatchOp.ne) → m.value ∈ cols) →
      ∃ R, resolveFieldColumns rm tbl cols fms = .ok R ∧
        ∀ c, c ∈ R ↔ (c ∈ (if fms.flatMap (posContrib rm cols) = [] then cols
          else fms.flatMap (posContrib rm cols)) ∧
          c ∉ fms.flatMap (negContrib rm cols))) ∧
    (((∃ m ∈ fms, m.op = MatchOp.eq ∧ m.value ∉ cols) ∧
        (∀ m ∈ fms, m.op = MatchOp.ne → m.value ∈ cols)) →
      resolveFieldColumns rm tbl cols fms = .error (.columnNotFound tbl)) ∧
    ((∃ m ∈ fms, (m.op = MatchOp.eq ∨ m.op = MatchOp.ne) ∧ m.value ∉ cols) →
      ∃ e, resolveFieldColumns rm tbl cols fms = .error e) := by
  refine ⟨?_, ?_, ?_⟩
  · intro hpres
    obtain ⟨⟨p, n⟩, hok⟩ := collect_ok_of_pres rm tbl cols fms [] [] hpres
    have hmem := collect_ok_mem rm tbl cols fms [] [] p n hok
    have hpm : ∀ c, c ∈ p ↔ c ∈ fms.flatMap (posContrib rm cols) := by
      intro c
      rw [(hmem c).1]
      simp
    have hnm : ∀ c, c ∈ n ↔ c ∈ fms.flatMap (negContrib rm cols) := by
      intro c
      rw [(hmem c).2]
      simp
    simp only [resolveFieldColumns, hok]
    refine ⟨_, rfl, ?_⟩
    intro c
    rw [List.mem_filter]
    simp only [decide_eq_true_eq]
    by_cases hz : fms.flatMap (posContrib rm cols) = []
    · have hpnil : p = [] := by
        rw [List.eq_nil_iff_forall_not_mem]
        intro x hxp
        have hx := (hpm x).mp hxp
        rw [hz] at hx
        cases hx
      rw [if_pos hz, hpnil]
      constructor
      · rintro ⟨hc, hn⟩
        exact ⟨hc, fun hns => hn ((hnm c).mpr hns)⟩
      · rintro ⟨hc, hn⟩
        exact ⟨hc, fun hns => hn ((hnm c).mp hns)⟩
    · have hpne : ¬ p.isEmpty = true := by
        obtain ⟨x, hx⟩ := List.exists_mem_of_ne_nil _ hz
        intro hie
        rw [List.isEmpty_iff] at hie
        rw [hie] at hpm
        have := (hpm x).mpr hx
        cases this
      rw [if_neg hz]
      rw [if_neg hpne]
      constructor
      · rintro ⟨hc, hn⟩
        exact ⟨(hpm c).mp hc, fun hns => hn ((hnm c).mpr hns)⟩
      · rintro ⟨hc, hn⟩
        exact ⟨(hpm c).mpr hc, fun hns => hn ((hnm c).mp hns)⟩
  · rintro ⟨hex, hne⟩
    have h := collect_error_eq rm tbl cols fms [] [] hex hne
    simp only [resolveFieldColumns, h]
  · intro hex
    obtain ⟨e, he⟩ := collect_error_any rm tbl cols fms [] [] hex
    exact ⟨e, by simp only [resolveFieldColumns, he]⟩

/-- Witness for the amended C4 at concrete inputs: a `NotEqual` on a present
column subtracts it from the full field set; an `Equal` on an absent column
fails with `ColumnNotFound`; a `NotEqual` on an absent column fails. -/
theorem field_matcher_resolution_witness :
    (∃ R, resolveFieldColumns (fun _ _ => false) "t" ["f0", "f1"]
        [⟨"__field__", .ne, "f1"⟩] = .ok R ∧
      ∀ c, c ∈ R ↔ (c ∈ (if ([⟨"__field__", .ne, "f1"⟩] : List Matcher).flatMap
          (posContrib (fun _ _ => false) ["f0", "f1"]) = [] then ["f0", "f1"]
        else ([⟨"__field__", .ne, "f1"⟩] : List Matcher).flatMap
          (posContrib (fun _ _ => false) ["f0", "f1"])) ∧
        c ∉ ([⟨"__field__", .ne, "f1"⟩] : List Matcher).flatMap
          (negContrib (fun _ _ => false) ["f0", "f1"]))) ∧
    resolveFieldColumns (fun _ _ => false) "t" ["f0", "f1"]
        [⟨"__field__", .eq, "zz"⟩] = .error (.columnNotFound "t") ∧
    (∃ e, resolveFieldColumns (fun _ _ => false) "t" ["f0", "f1"]
        [⟨"__field__", .ne, "zz"⟩] = .error e) :=
  ⟨(field_matcher_resolution (fun _ _ => false) "t" ["f0", "f1"]
      [⟨"__field__", .ne, "f1"⟩]).1 (by decide),
   (field_matcher_resolution (fun _ _ => false) "t" ["f0", "f1"]
      [⟨"__field__", .eq, "zz"⟩]).2.1 ⟨by decide, by decide⟩,
   (field_matcher_resolution (fun _ _ => false) "t" ["f0", "f1"]
      [⟨"__field__", .ne, "zz"⟩]).2.2 (by decide)⟩

/-- C10: planning a selector whose `__field__` `Equal` matcher names a column
absent from the table's field columns fails with a `ColumnNotFound` error
whose column payload is the *table name* (planner.rs lines 471-475), not the
name of the absent field column. -/
theorem planner_field_eq_absent_error (rm : String → String → Bool) (w : EvalWindow)
    (sch : TableSchema) (offset : Int) (ms : List Matcher) (fieldOrd : List String)
    (T : String) (fms : List Matcher)
    (htn : (preprocessLabelMatchers ms).tableName = some T)
    (hfm : (preprocessLabelMatchers ms).fieldMatchers = some fms)
    (habs : ∃ m ∈ fms, m.op = MatchOp.eq ∧ m.value ∉ sch.fieldCols)
    (hne : ∀ m ∈ fms, m.op = MatchOp.ne → m.value ∈ sch.fieldCols) :
    planVectorSelector rm w sch offset ms fieldOrd = .error (.columnNotFound T) := by
  have hres : resolveFieldColumns rm T sch.fieldCols fms = .error (.columnNotFound T) := by
    have h := collect_error_eq rm T sch.fieldCols fms [] [] habs hne
    simp only [resolveFieldColumns, h]
  simp only [planVectorSelector, selectorToSeriesNormalizePlan, htn, hfm, hres]

/-- Witness for C10: `{__name__="t", __field__="nope"}` against a table whose
only field is `f0` fails with `ColumnNotFound "t"` — the table name, distinct
from the absent column's name. -/
theorem planner_field_eq_absent_error_witness :
    (preprocessLabelMatchers [⟨"__name__", .eq, "t"⟩, ⟨"__field__", .eq, "nope"⟩]).tableName =
      some "t" ∧
    (preprocessLabelMatchers
        [⟨"__name__", .eq, "t"⟩, ⟨"__field__", .eq, "nope"⟩]).fieldMatchers =
      some [⟨"__field__", .eq, "nope"⟩] ∧
    planVectorSelector (fun _ _ => false) ⟨0, 1, 1, 1⟩ ⟨"ts", [], ["f0"]⟩ 0
        [⟨"__name__", .eq, "t"⟩, ⟨"__field__", .eq, "nope"⟩] [] =
      .error (.columnNotFound "t") ∧
    PlanError.columnNotFound "t" ≠ PlanError.columnNotFound "nope" :=
  ⟨by decide, by decide,
   planner_field_eq_absent_error (fun _ _ => false) ⟨0, 1, 1, 1⟩ ⟨"ts", [], ["f0"]⟩ 0
     [⟨"__name__", .eq, "t"⟩, ⟨"__field__", .eq, "nope"⟩] [] "t"
     [⟨"__field__", .eq, "nope"⟩] (by decide) (by decide) (by decide) (by decide),
   by decide⟩

end Greptime
